import Mathlib

/-! # cpp-bson-convert: a shallow embedding of `cpp-bson-convert.hpp`

The header derives, from one `BSON_DEFINE_TYPE(class_name, members...)` line, a
decoder `fromBSON` and an encoder `toBSON` between a C++ record and a BSON
document.  This file embeds

* the document model the header consumes (cells, documents, elements),
* the template `get<T>` with `deserializeMember` and the `BSON_DEFINE_FROM_BSON`
  expansion,
* the nine `serializeMember` overloads with the `BSON_DEFINE_TO_BSON` expansion,

and proves the properties the specification states about them.

C++ types are a first-order universe `Ty`; classes are referred to by name and
looked up in a `ClassTable`, so that a class may hold a vector of itself.
Template instantiation is type-directed dispatch on `Ty`; a failure to compile
(`static_assert`, a missing `T::toBSON`) is the error `Err.unsupportedType`.
-/

namespace BsonConvert

/-! ## Data model -/

/-- The twelve bytes of a `bsoncxx::oid`, as one number. -/
abbrev Oid := Nat

/-- An IEEE double, carried as its bit pattern: the codec only copies it. -/
structure F64 where
  bits : Nat
  deriving DecidableEq, Repr

/-- The declared type `T` of a member, as far as the dispatch of the header can
tell types apart.  `int32` is `int` and `int32_t`; `timePoint` is
`std::chrono::system_clock::time_point`; `cls n` is a class that carries its own
`BSON_DEFINE_TYPE`; `other arithmetic` is every remaining type, with
`std::is_arithmetic_v` as the flag (`float`, `char`, `unsigned`: true; a pointer,
an enum, a class without `toBSON` and `fromBSON`: false).  `get` rejects each of
the remaining types with its `static_assert` or for want of `T::fromBSON`, so no
class that lists such a member compiles, and their values are given no
representation here. -/
inductive Ty where
  | bool
  | int32
  | int64
  | double
  | string
  | timePoint
  | short
  | ushort
  | oid
  | optional (T : Ty)
  | vector (T : Ty)
  | cls (name : String)
  | other (arithmetic : Bool)
  deriving DecidableEq, Repr

/-- A BSON value (a cell), of one of the ten kinds the header reads or writes. -/
inductive Cell where
  | null
  | bool (b : Bool)
  | int32 (v : Int)
  | int64 (v : Int)
  | double (v : F64)
  | utf8 (s : String)
  | date (ms : Int)
  | oid (o : Oid)
  | document (pairs : List (String × Cell))
  | array (elems : List Cell)

/-- The kind tag of a cell (`bsoncxx::type`). -/
inductive Kind where
  | k_null | k_bool | k_int32 | k_int64 | k_double | k_string | k_date | k_oid
  | k_document | k_array
  deriving DecidableEq, Repr

/-- A document (view, builder contents or value): its pairs, in order. -/
abbrev Doc := List (String × Cell)

/-- A `bsoncxx` element: `none` is the invalid element, for which
`operator bool` is false. -/
abbrev Element := Option Cell

/-- A C++ value.  `timePoint` counts the nanoseconds since the epoch (the
resolution of `system_clock` under libstdc++, whose `std::__is_optional_v` the
header uses); `obj` lists the values of the members named in
`BSON_DEFINE_TYPE`, in that order. -/
inductive Val where
  | bool (b : Bool)
  | int32 (v : Int)
  | int64 (v : Int)
  | double (v : F64)
  | string (s : String)
  | timePoint (ns : Int)
  | short (v : Int)
  | ushort (v : Int)
  | oid (o : Oid)
  | opt (o : Option Val)
  | vec (elems : List Val)
  | obj (members : List Val)

/-- What a codec call can end in other than a result.  `typeMismatch` and
`unsetElement` are the `bsoncxx::exception`s of the typed accessors;
`unsupportedType` stands for an instantiation that does not compile;
`illTyped` marks a value that is not a value of the declared type, which C++
rules out statically. -/
inductive Err where
  | typeMismatch
  | unsetElement
  | unsupportedType
  | illTyped
  deriving DecidableEq, Repr

/-- One member listed in a `BSON_DEFINE_TYPE`: its name (the document key), its
declared type, and its value in `class_name instance{}`. -/
structure Field where
  name : String
  ty : Ty
  dflt : Val

/-- The classes of a program, by name: for each class the members its
`BSON_DEFINE_TYPE` lists, in the order of the macro arguments. -/
abbrev ClassTable := String → List Field

/-! ## Type traits -/

/-- The trait `is_std_vector_v`. -/
def is_std_vector_v : Ty → Bool
  | .vector _ => true
  | _ => false

/-- The trait `std::__is_optional_v`. -/
def is_optional_v : Ty → Bool
  | .optional _ => true
  | _ => false

/-- The trait `std::is_arithmetic_v`. -/
def is_arithmetic_v : Ty → Bool
  | .bool | .int32 | .int64 | .double | .short | .ushort => true
  | .other a => a
  | _ => false

/-- The trait `is_primitive_v`: `std::string`, an arithmetic type, or
`bsoncxx::oid`. -/
def is_primitive_v (T : Ty) : Bool :=
  T = .string || is_arithmetic_v T || T = .oid

/-- Whether `get<T>` compiles: the `if constexpr` chain ends in a
`static_assert` for a type it does not know, and instantiates itself at the
value type of an optional or a vector. -/
def decodable : Ty → Bool
  | .optional U => decodable U
  | .vector U => decodable U
  | .other _ => false
  | _ => true

/-- The primitive types (`is_primitive_v`) that `get` accepts too: those whose
values are represented here and given a cell by `kvp(key, value)` and
`arr.append(el)`. -/
def appendable : Ty → Bool
  | .bool | .int32 | .int64 | .double | .string | .oid | .short | .ushort => true
  | _ => false

/-- Whether `T::toBSON` exists: `T` is a class with a `BSON_DEFINE_TYPE`. -/
def has_toBSON : Ty → Bool
  | .cls _ => true
  | _ => false

/-- Whether the call `serializeMember(doc, key, value)` compiles for a value of
type `T` and the value is represented here: the overload that resolution selects
exists and its body compiles (a vector of non-primitives needs `T::toBSON`, an
optional of a non-primitive needs the call for its value to compile). -/
def serializable : Ty → Bool
  | .timePoint => true
  | .cls _ => true
  | .optional U =>
    if is_primitive_v U then appendable U
    else
      match U with
      | .vector E => if is_primitive_v E then appendable E else has_toBSON E
      | _ => serializable U
  | .vector E => if is_primitive_v E then appendable E else has_toBSON E
  | T => appendable T

/-! ## The document interface (bsoncxx) -/

/-- Modelled from the spec: `element.type()` of the external document library,
the kind of a cell. -/
def Cell.type : Cell → Kind
  | .null => .k_null
  | .bool _ => .k_bool
  | .int32 _ => .k_int32
  | .int64 _ => .k_int64
  | .double _ => .k_double
  | .utf8 _ => .k_string
  | .date _ => .k_date
  | .oid _ => .k_oid
  | .document _ => .k_document
  | .array _ => .k_array

/-- Modelled from the spec: `view.find(key)` of the external document library,
the first cell stored under `key`, if any. -/
def find : Doc → String → Option Cell
  | [], _ => none
  | (k, c) :: rest, key => if k = key then some c else find rest key

/-- Modelled from the spec: `builder.append(kvp(key, cell))` of the external
document library, which adds one pair at the end. -/
def append (doc : Doc) (key : String) (c : Cell) : Doc :=
  doc ++ [(key, c)]

/-- Modelled from the spec: the typed accessor `get_bool`. -/
def get_bool : Element → Except Err Bool
  | some (.bool b) => .ok b
  | some _ => .error .typeMismatch
  | none => .error .unsetElement

/-- Modelled from the spec: the typed accessor `get_int32`. -/
def get_int32 : Element → Except Err Int
  | some (.int32 v) => .ok v
  | some _ => .error .typeMismatch
  | none => .error .unsetElement

/-- Modelled from the spec: the typed accessor `get_int64`. -/
def get_int64 : Element → Except Err Int
  | some (.int64 v) => .ok v
  | some _ => .error .typeMismatch
  | none => .error .unsetElement

/-- Modelled from the spec: the typed accessor `get_double`. -/
def get_double : Element → Except Err F64
  | some (.double v) => .ok v
  | some _ => .error .typeMismatch
  | none => .error .unsetElement

/-- Modelled from the spec: the typed accessor `get_string`. -/
def get_string : Element → Except Err String
  | some (.utf8 s) => .ok s
  | some _ => .error .typeMismatch
  | none => .error .unsetElement

/-- Modelled from the spec: the typed accessor `get_date`, in milliseconds. -/
def get_date : Element → Except Err Int
  | some (.date ms) => .ok ms
  | some _ => .error .typeMismatch
  | none => .error .unsetElement

/-- Modelled from the spec: the typed accessor `get_oid`. -/
def get_oid : Element → Except Err Oid
  | some (.oid o) => .ok o
  | some _ => .error .typeMismatch
  | none => .error .unsetElement

/-- Modelled from the spec: the typed accessor `get_array`. -/
def get_array : Element → Except Err (List Cell)
  | some (.array elems) => .ok elems
  | some _ => .error .typeMismatch
  | none => .error .unsetElement

/-- Modelled from the spec: the typed accessor `get_document`. -/
def get_document : Element → Except Err Doc
  | some (.document pairs) => .ok pairs
  | some _ => .error .typeMismatch
  | none => .error .unsetElement

/-! ## Machine integers and durations -/

/-- The value of a conversion to `unsigned short`. -/
def toUInt16 (v : Int) : Int := v % 65536

/-- The value of a conversion to `short` (two's complement). -/
def toInt16 (v : Int) : Int := (v + 32768) % 65536 - 32768

/-- The value of a conversion to a signed 64-bit integer (two's complement). -/
def toInt64 (v : Int) : Int := (v + 2 ^ 63) % 2 ^ 64 - 2 ^ 63

/-- Modelled from the spec: the conversion `b_date{tp}` of the external document
library to a date cell in milliseconds since the epoch, the
`duration_cast<milliseconds>` of the nanoseconds, which truncates toward
zero. -/
def b_date (ns : Int) : Int := ns.tdiv 1000000

/-- Modelled from the spec: the conversion of a date cell of the external
document library to a `system_clock::time_point`, the
`duration_cast<system_clock::duration>` of the milliseconds. -/
def time_point_of_date (ms : Int) : Int := toInt64 (ms * 1000000)

/-! ## Deserialize methods -/

set_option linter.unusedVariables false

/-- A cell found in a document is smaller than the document. -/
theorem find_sizeOf_lt {doc : Doc} {key : String} {c : Cell} (h : find doc key = some c) :
    sizeOf c < sizeOf doc := by
  induction doc with
  | nil => simp [find] at h
  | cons p rest ih =>
    obtain ⟨k, c0⟩ := p
    simp only [find] at h
    split at h
    · cases h
      simp only [List.cons.sizeOf_spec, Prod.mk.sizeOf_spec]
      omega
    · have := ih h
      simp only [List.cons.sizeOf_spec, Prod.mk.sizeOf_spec]
      omega

/-- The elements of an array element are smaller than the element. -/
theorem get_array_sizeOf_lt {element : Element} {elems : List Cell}
    (h : get_array element = .ok elems) : 1 + sizeOf elems < sizeOf element := by
  unfold get_array at h
  split at h
  · cases h
    simp only [Option.some.sizeOf_spec, Cell.array.sizeOf_spec]
    omega
  · cases h
  · cases h

/-- The pairs of a document element are smaller than the element. -/
theorem get_document_sizeOf_lt {element : Element} {doc : Doc}
    (h : get_document element = .ok doc) : 1 + sizeOf doc < sizeOf element := by
  unfold get_document at h
  split at h
  · cases h
    simp only [Option.some.sizeOf_spec, Cell.document.sizeOf_spec]
    omega
  · cases h
  · cases h

mutual

/-- The template `get<T>(element)`: one branch of the `if constexpr` chain per
type, and `return T{}` after an optional whose element is invalid or null.  An
instantiation that does not compile is `unsupportedType`, whatever the
element. -/
def get (tbl : ClassTable) (T : Ty) (element : Element) : Except Err Val :=
  if decodable T then
  match T with
  | .optional U =>
    if (match element with
        | some c => c.type != Kind.k_null
        | none => false) then
      (get tbl U element).map (fun v => Val.opt (some v))
    else
      .ok (.opt none)
  | .bool => (get_bool element).map Val.bool
  | .int32 => (get_int32 element).map Val.int32
  | .int64 => (get_int64 element).map Val.int64
  | .double => (get_double element).map Val.double
  | .string => (get_string element).map Val.string
  | .timePoint => (get_date element).map (fun ms => Val.timePoint (time_point_of_date ms))
  | .short => (get_int32 element).map (fun v => Val.short (toInt16 (toUInt16 v)))
  | .ushort => (get_int32 element).map (fun v => Val.ushort (toUInt16 v))
  | .vector U =>
    match h : get_array element with
    | .ok elems => (get_elements tbl U elems).map Val.vec
    | .error e => .error e
  | .oid => (get_oid element).map Val.oid
  | .cls n =>
    match h : get_document element with
    | .ok doc => fromBSON tbl n doc
    | .error e => .error e
  | .other _ => .error .unsupportedType
  else .error .unsupportedType
termination_by (sizeOf element, 0, sizeOf T)
decreasing_by
  · simp_wf
    apply Prod.Lex.right
    apply Prod.Lex.right
    omega
  · simp_wf
    apply Prod.Lex.left
    exact get_array_sizeOf_lt h
  · simp_wf
    apply Prod.Lex.left
    exact get_document_sizeOf_lt h

/-- The loop of the vector branch of `get`: decode each element in order and
append it to the vector. -/
def get_elements (tbl : ClassTable) (U : Ty) (elems : List Cell) : Except Err (List Val) :=
  match elems with
  | [] => .ok []
  | el :: rest => do
    let v ← get tbl U (some el)
    let vs ← get_elements tbl U rest
    pure (v :: vs)
termination_by (1 + sizeOf elems, 0, 0)
decreasing_by
  · simp_wf
    apply Prod.Lex.left
    omega
  · simp_wf
    apply Prod.Lex.left
    omega

/-- The function `deserializeMember(member, doc, key)`: assign the decoded cell
when the key is found, leave the member alone otherwise.  The result is the
member after the call. -/
def deserializeMember (tbl : ClassTable) (T : Ty) (member : Val) (doc : Doc) (key : String) :
    Except Err Val :=
  match h : find doc key with
  | some c => get tbl T (some c)
  | none => .ok member
termination_by (1 + sizeOf doc, 0, 0)
decreasing_by
  apply Prod.Lex.left
  have := find_sizeOf_lt h
  simp only [Option.some.sizeOf_spec]
  omega

/-- The macro `BSON_FROM_BSON_1`: `deserializeMember` for the first listed
member of the instance, which still has the value `class_name instance{}` gave
it, then the expansion for the rest.  The result lists the members of the
instance after the calls. -/
def BSON_FROM_BSON_1 (tbl : ClassTable) (fields : List Field) (doc : Doc) :
    Except Err (List Val) :=
  match fields with
  | [] => .ok []
  | x :: rest => do
    let m1 ← deserializeMember tbl x.ty x.dflt doc x.name
    let ms1 ← BSON_FROM_BSON_1 tbl rest doc
    pure (m1 :: ms1)
termination_by (1 + sizeOf doc, 1, fields.length)
decreasing_by
  · simp_wf
    apply Prod.Lex.right
    apply Prod.Lex.left
    omega
  · simp_wf
    apply Prod.Lex.right
    apply Prod.Lex.right
    omega

/-- The function `class_name::fromBSON(doc)` that `BSON_DEFINE_FROM_BSON`
defines: start from `class_name instance{}` and deserialize each listed
member. -/
def fromBSON (tbl : ClassTable) (n : String) (doc : Doc) : Except Err Val :=
  (BSON_FROM_BSON_1 tbl (tbl n) doc).map Val.obj
termination_by (1 + sizeOf doc, 2, 0)
decreasing_by
  apply Prod.Lex.right
  apply Prod.Lex.left
  omega

end

/-! ## Serialize methods -/

/-- Modelled from the spec: the cell that `kvp(key, value)` and `arr.append(el)`
of the external document library build from a primitive value, by the scalar
table: the 16-bit integers are promoted to `int` and give an int32 cell. -/
def scalarCell : Ty → Val → Except Err Cell
  | .bool, .bool b => .ok (.bool b)
  | .int32, .int32 v => .ok (.int32 v)
  | .int64, .int64 v => .ok (.int64 v)
  | .double, .double v => .ok (.double v)
  | .string, .string s => .ok (.utf8 s)
  | .oid, .oid o => .ok (.oid o)
  | .short, .short v => .ok (.int32 v)
  | .ushort, .ushort v => .ok (.int32 v)
  | .other _, _ => .error .unsupportedType
  | .optional _, _ => .error .unsupportedType
  | .vector _, _ => .error .unsupportedType
  | .cls _, _ => .error .unsupportedType
  | .timePoint, _ => .error .unsupportedType
  | _, _ => .error .illTyped

/-- The loop of the overloads for a vector of primitives: `arr.append(el)` for
each element in order. -/
def appendPrimitives (T : Ty) (arr : List Cell) : List Val → Except Err (List Cell)
  | [] => .ok arr
  | el :: rest => do
    let c ← scalarCell T el
    appendPrimitives T (arr ++ [c]) rest

/-- The overload `enable_if_t<is_primitive_v<T>> serializeMember(doc, key, const T&)`. -/
def serializeMember_primitive (T : Ty) (doc : Doc) (key : String) (value : Val) :
    Except Err Doc := do
  let c ← scalarCell T value
  pure (append doc key c)

/-- The non-template overload of `serializeMember` for a
`system_clock::time_point`. -/
def serializeMember_time_point (doc : Doc) (key : String) (value : Val) : Except Err Doc :=
  match value with
  | .timePoint ns => .ok (append doc key (.date (b_date ns)))
  | _ => .error .illTyped

/-- The overload `enable_if_t<is_primitive_v<T>> serializeMember(doc, key, const
std::optional<T>&)`: the value when there is one, else a null cell unless `T` is
`bsoncxx::oid`. -/
def serializeMember_optional_primitive (T : Ty) (doc : Doc) (key : String) (value : Val) :
    Except Err Doc :=
  match value with
  | .opt (some v) => do
    let c ← scalarCell T v
    pure (append doc key c)
  | .opt none => if T ≠ .oid then .ok (append doc key .null) else .ok doc
  | _ => .error .illTyped

/-- The overload `enable_if_t<is_primitive_v<T>> serializeMember(doc, key, const
std::vector<T>&)`. -/
def serializeMember_vector_primitive (T : Ty) (doc : Doc) (key : String) (value : Val) :
    Except Err Doc :=
  match value with
  | .vec elems => do
    let arr ← appendPrimitives T [] elems
    pure (append doc key (.array arr))
  | _ => .error .illTyped

/-- The overload `enable_if_t<is_primitive_v<T>> serializeMember(doc, key, const
std::optional<std::vector<T>>&)`. -/
def serializeMember_optional_vector_primitive (T : Ty) (doc : Doc) (key : String)
    (value : Val) : Except Err Doc :=
  match value with
  | .opt (some v) =>
    match v with
    | .vec elems => do
      let arr ← appendPrimitives T [] elems
      pure (append doc key (.array arr))
    | _ => .error .illTyped
  | .opt none => .ok (append doc key .null)
  | _ => .error .illTyped

mutual

/-- The overload set `serializeMember(doc, key, value)` at the declared type
`T` of `value`, resolved as the compiler resolves it; the result is the builder
after the call.  A call that does not compile is `unsupportedType`, whatever
the value. -/
def serializeMember (tbl : ClassTable) (T : Ty) (doc : Doc) (key : String) (value : Val) :
    Except Err Doc :=
  if ¬ serializable T then
    .error .unsupportedType
  else if is_primitive_v T then
    serializeMember_primitive T doc key value
  else
    match T with
    | .timePoint => serializeMember_time_point doc key value
    | .optional U =>
      if is_primitive_v U then
        serializeMember_optional_primitive U doc key value
      else
        match U with
        | .vector E =>
          if is_primitive_v E then
            serializeMember_optional_vector_primitive E doc key value
          else
            serializeMember_optional_vector_class tbl E doc key value
        | _ => serializeMember_optional tbl U doc key value
    | .vector E =>
      if is_primitive_v E then
        serializeMember_vector_primitive E doc key value
      else
        serializeMember_vector_class tbl E doc key value
    | .cls n => serializeMember_class tbl n doc key value
    | _ => .error .unsupportedType
termination_by (sizeOf value, 2)
decreasing_by
  all_goals (apply Prod.Lex.right; omega)

/-- The overload `enable_if_t<!is_primitive_v<T>> serializeMember(doc, key, const
std::vector<T>&)`. -/
def serializeMember_vector_class (tbl : ClassTable) (T : Ty) (doc : Doc) (key : String)
    (value : Val) : Except Err Doc :=
  match value with
  | .vec elems => do
    let arr ← appendObjects tbl T [] elems
    pure (append doc key (.array arr))
  | _ => .error .illTyped
termination_by (sizeOf value, 1)
decreasing_by
  all_goals simp_wf
  all_goals (apply Prod.Lex.left; omega)

/-- The overload `enable_if_t<!is_primitive_v<T>> serializeMember(doc, key, const
std::optional<std::vector<T>>&)`. -/
def serializeMember_optional_vector_class (tbl : ClassTable) (T : Ty) (doc : Doc)
    (key : String) (value : Val) : Except Err Doc :=
  match value with
  | .opt (some v) =>
    match v with
    | .vec elems => do
      let arr ← appendObjects tbl T [] elems
      pure (append doc key (.array arr))
    | _ => .error .illTyped
  | .opt none => .ok (append doc key .null)
  | _ => .error .illTyped
termination_by (sizeOf value, 1)
decreasing_by
  all_goals simp_wf
  all_goals (apply Prod.Lex.left; omega)

/-- The overload for a class member, `enable_if_t<!is_primitive_v<T> &&
!is_std_vector_v<T> && !std::__is_optional_v<T>>`: append `T::toBSON(value)`. -/
def serializeMember_class (tbl : ClassTable) (n : String) (doc : Doc) (key : String)
    (value : Val) : Except Err Doc := do
  let d ← toBSON tbl n value
  pure (append doc key (.document d))
termination_by (sizeOf value, 1)
decreasing_by
  all_goals (apply Prod.Lex.right; omega)

/-- The overload `enable_if_t<!is_primitive_v<T>> serializeMember(doc, key, const
std::optional<T>&)`: serialize the value when there is one, else a null cell. -/
def serializeMember_optional (tbl : ClassTable) (T : Ty) (doc : Doc) (key : String)
    (value : Val) : Except Err Doc :=
  match value with
  | .opt (some v) => serializeMember tbl T doc key v
  | .opt none => .ok (append doc key .null)
  | _ => .error .illTyped
termination_by (sizeOf value, 1)
decreasing_by
  all_goals simp_wf
  all_goals (apply Prod.Lex.left; omega)

/-- The loop of the overloads for a vector of non-primitives:
`arr.append(T::toBSON(el).view())` for each element in order; a `T` without a
static `toBSON` does not compile. -/
def appendObjects (tbl : ClassTable) (T : Ty) (arr : List Cell) (value : List Val) :
    Except Err (List Cell) :=
  match value with
  | [] => .ok arr
  | el :: rest =>
    match T with
    | .cls n => do
      let d ← toBSON tbl n el
      appendObjects tbl T (arr ++ [.document d]) rest
    | _ => .error .unsupportedType
termination_by (sizeOf value, 0)
decreasing_by
  all_goals simp_wf
  all_goals (apply Prod.Lex.left; omega)

/-- The macro `BSON_TO_BSON_1`: `serializeMember` for the first listed member,
then the expansion for the rest. -/
def BSON_TO_BSON_1 (tbl : ClassTable) (fields : List Field) (doc : Doc)
    (members : List Val) : Except Err Doc :=
  match fields, members with
  | [], _ => .ok doc
  | _ :: _, [] => .error .illTyped
  | x :: rest, m :: ms => do
    let doc1 ← serializeMember tbl x.ty doc x.name m
    BSON_TO_BSON_1 tbl rest doc1 ms
termination_by (sizeOf members, 0)
decreasing_by
  all_goals simp_wf
  all_goals (apply Prod.Lex.left; omega)

/-- The function `class_name::toBSON(obj)` that `BSON_DEFINE_TO_BSON` defines:
an empty builder, each listed member serialized in order, then `extract`. -/
def toBSON (tbl : ClassTable) (n : String) (obj : Val) : Except Err Doc :=
  match obj with
  | .obj members => BSON_TO_BSON_1 tbl (tbl n) [] members
  | _ => .error .illTyped
termination_by (sizeOf obj, 0)
decreasing_by
  all_goals simp_wf
  all_goals (apply Prod.Lex.left; omega)

end

/-! ## Values of a type, value-initialisation, accepted classes -/

/-- The value `v` is a value of the C++ type `T`: the right shape, integers
within the range of their type, an object with one well-typed member per listed
field. -/
inductive HasType (tbl : ClassTable) : Ty → Val → Prop where
  | bool (b : Bool) : HasType tbl .bool (.bool b)
  | int32 (v : Int) (lo : -2147483648 ≤ v) (hi : v ≤ 2147483647) : HasType tbl .int32 (.int32 v)
  | int64 (v : Int) (lo : -9223372036854775808 ≤ v) (hi : v ≤ 9223372036854775807) :
      HasType tbl .int64 (.int64 v)
  | double (v : F64) : HasType tbl .double (.double v)
  | string (s : String) : HasType tbl .string (.string s)
  | timePoint (ns : Int) (lo : -9223372036854775808 ≤ ns) (hi : ns ≤ 9223372036854775807) :
      HasType tbl .timePoint (.timePoint ns)
  | short (v : Int) (lo : -32768 ≤ v) (hi : v ≤ 32767) : HasType tbl .short (.short v)
  | ushort (v : Int) (lo : 0 ≤ v) (hi : v ≤ 65535) : HasType tbl .ushort (.ushort v)
  | oid (o : Oid) : HasType tbl .oid (.oid o)
  | none (T : Ty) : HasType tbl (.optional T) (.opt none)
  | some (T : Ty) (v : Val) (h : HasType tbl T v) : HasType tbl (.optional T) (.opt (some v))
  | vec (T : Ty) (elems : List Val) (h : ∀ v ∈ elems, HasType tbl T v) :
      HasType tbl (.vector T) (.vec elems)
  | obj (n : String) (members : List Val)
      (h : List.Forall₂ (fun f v => HasType tbl f.ty v) (tbl n) members) :
      HasType tbl (.cls n) (.obj members)

/-- The value `v` is what value-initialisation (`T{}`) gives at type `T`: zero,
empty or absent, the default instance for a class, and some freshly generated
identifier for a `bsoncxx::oid`. -/
inductive ValueInit (tbl : ClassTable) : Ty → Val → Prop where
  | bool : ValueInit tbl .bool (.bool false)
  | int32 : ValueInit tbl .int32 (.int32 0)
  | int64 : ValueInit tbl .int64 (.int64 0)
  | double : ValueInit tbl .double (.double ⟨0⟩)
  | string : ValueInit tbl .string (.string "")
  | timePoint : ValueInit tbl .timePoint (.timePoint 0)
  | short : ValueInit tbl .short (.short 0)
  | ushort : ValueInit tbl .ushort (.ushort 0)
  | oid (o : Oid) : ValueInit tbl .oid (.oid o)
  | optional (T : Ty) : ValueInit tbl (.optional T) (.opt none)
  | vector (T : Ty) : ValueInit tbl (.vector T) (.vec [])
  | cls (n : String) : ValueInit tbl (.cls n) (.obj ((tbl n).map Field.dflt))

/-- Every class of the table compiles: each listed member has a type that
`get` and `serializeMember` accept. -/
def Accepted (tbl : ClassTable) : Prop :=
  ∀ n, ∀ f ∈ tbl n, decodable f.ty = true ∧ serializable f.ty = true

/-- The listed members of every class have distinct names. -/
def DistinctNames (tbl : ClassTable) : Prop :=
  ∀ n, ((tbl n).map Field.name).Nodup

/-- The instance `class_name instance{}` of every class has value-initialised
members: no member carries a default member initializer. -/
def DefaultsValueInit (tbl : ClassTable) : Prop :=
  ∀ n, ∀ f ∈ tbl n, ValueInit tbl f.ty f.dflt

/-- The instance `class_name instance{}` of every class holds no value in its
optional identifiers: no default member initializer gives one of them a
value. -/
def OptionalOidDefaultsAbsent (tbl : ClassTable) : Prop :=
  ∀ n, ∀ f ∈ tbl n, f.ty = .optional .oid → f.dflt = .opt none

/-- The kind of cell the typed accessor used for `T` insists on; an optional
expects what its value type expects. -/
def expectedKind : Ty → Option Kind
  | .bool => some .k_bool
  | .int32 => some .k_int32
  | .int64 => some .k_int64
  | .double => some .k_double
  | .string => some .k_string
  | .timePoint => some .k_date
  | .short => some .k_int32
  | .ushort => some .k_int32
  | .oid => some .k_oid
  | .optional U => expectedKind U
  | .vector _ => some .k_array
  | .cls _ => some .k_document
  | .other _ => none

/-! ## Vocabulary of the statements -/

/-- The pairs one `serializeMember` call adds under `key`: one pair with the
cell written, or none. -/
def keyed (key : String) : Option Cell → Doc
  | some c => [(key, c)]
  | none => []

/-- The keys of a document, in order. -/
def keys (doc : Doc) : List String :=
  doc.map Prod.fst

/-- The member is an optional identifier that holds no value. -/
def absentOptionalOid : Ty → Val → Bool
  | .optional .oid, .opt none => true
  | _, _ => false

/-- The names of the listed members in declaration order, without those of the
optional identifiers that hold no value. -/
def declaredKeys : List Field → List Val → List String
  | f :: fs, m :: ms =>
    if absentOptionalOid f.ty m then declaredKeys fs ms else f.name :: declaredKeys fs ms
  | _, _ => []

/-- The member is an absent optional identifier, directly or as the value of
present optionals around it: `serializeMember` hands a present optional of a
non-primitive, non-vector type to the overload of its value. -/
def omitsKey : Ty → Val → Bool
  | .optional U, .opt none => U = .oid
  | .optional U, .opt (some v) => !is_primitive_v U && !is_std_vector_v U && omitsKey U v
  | _, _ => false

/-- The names of the listed members in declaration order, without those whose
value `omitsKey`. -/
def writtenKeys : List Field → List Val → List String
  | f :: fs, m :: ms =>
    if omitsKey f.ty m then writtenKeys fs ms else f.name :: writtenKeys fs ms
  | _, _ => []

/-- The kinds bool, 32-bit integer, 64-bit integer, double, string and
identifier. -/
def basicKind : Ty → Bool
  | .bool | .int32 | .int64 | .double | .string | .oid => true
  | _ => false

/-- A basic kind, a sequence of a basic kind, a nested record or a sequence of
nested records. -/
def plainKind : Ty → Bool
  | .vector E => basicKind E || has_toBSON E
  | .cls _ => true
  | T => basicKind T

/-- A plain kind or an optional of a plain kind. -/
def roundTripKind : Ty → Bool
  | .optional U => plainKind U
  | T => plainKind T

/-- Every listed member of every class is of a round-trip kind. -/
def RoundTripTable (tbl : ClassTable) : Prop :=
  ∀ n, ∀ f ∈ tbl n, roundTripKind f.ty = true

/-- What the round trip of one member says: the call adds at most one pair, a
cell it adds decodes to the member, and it adds none only for an optional
identifier that holds no value. -/
def MemberRoundTrip (tbl : ClassTable) (T : Ty) (v : Val) (oc : Option Cell) : Prop :=
  (∀ doc key, serializeMember tbl T doc key v = .ok (doc ++ keyed key oc)) ∧
  (∀ c, oc = some c → get tbl T (some c) = .ok v) ∧
  (oc = none → T = .optional .oid ∧ v = .opt none)

/-- The type is, or wraps in optionals and vectors, a type outside the four
classifications (`Ty.other`). -/
def unclassified : Ty → Bool
  | .other _ => true
  | .optional U => unclassified U
  | .vector U => unclassified U
  | _ => false

/-- An identifier, bare or under optionals. -/
def wrapsOid : Ty → Bool
  | .oid => true
  | .optional U => wrapsOid U
  | _ => false

/-- Two optionals or more around an identifier. -/
def nestedOptionalOid : Ty → Bool
  | .optional (.optional U) => wrapsOid U
  | _ => false

/-- No class lists a member that is an optional of an optional, and so on, of an
identifier. -/
def NoNestedOptionalOid (tbl : ClassTable) : Prop :=
  ∀ n, ∀ f ∈ tbl n, nestedOptionalOid f.ty = false

/-- The cell `c` is a fixed point of decode-then-encode at the type `T`: `get`
decodes it to a value for which `serializeMember` writes `c` again. -/
def Stable (tbl : ClassTable) (T : Ty) (c : Cell) : Prop :=
  ∃ v, get tbl T (some c) = .ok v ∧
    ∀ doc key, serializeMember tbl T doc key v = .ok (doc ++ [(key, c)])

/-- What decode-then-encode says of one member: the call adds at most one pair,
a cell it adds is `Stable`, and it adds none only for a value that
`omitsKey`. -/
def MemberFixed (tbl : ClassTable) (T : Ty) (v : Val) (oc : Option Cell) : Prop :=
  (∀ doc key, serializeMember tbl T doc key v = .ok (doc ++ keyed key oc)) ∧
  (∀ c, oc = some c → Stable tbl T c) ∧
  (oc = none → omitsKey T v = true)

/-- The pairs of a document whose key is one of `names`, in order. -/
def restrict (names : List String) (doc : Doc) : Doc :=
  doc.filter (fun p => decide (p.1 ∈ names))

/-! ## The classes of the test suite and of the specification -/

/-- The class table that holds the given classes; any other name is a class
that lists no member. -/
def tableOf (classes : List (String × List Field)) : ClassTable :=
  fun n =>
    match classes.find? (fun c => c.1 = n) with
    | some c => c.2
    | none => []

/-- The classes of `test.cpp` (`Inner`, `NestedClass`, `NestedClassArray` for
the `NestedClass` of the array tests, `OptionalClass`, `AllTypes` with its
identifier value-initialised to `7`) and the record of the end-to-end example of
the specification (`Example`). -/
def testClasses : List (String × List Field) :=
  [ ("Inner", [⟨"x", .int32, .int32 0⟩, ⟨"y", .int32, .int32 0⟩]),
    ("NestedClass",
      [⟨"inner", .cls "Inner", .obj [.int32 0, .int32 0]⟩, ⟨"name", .string, .string ""⟩]),
    ("NestedClassArray",
      [⟨"inner", .vector (.cls "Inner"), .vec []⟩, ⟨"name", .string, .string ""⟩]),
    ("OptionalClass",
      [⟨"optionalInt", .optional .int32, .opt none⟩,
       ⟨"optionalString", .optional .string, .opt none⟩,
       ⟨"optionalStringArray", .optional (.vector .string), .opt none⟩,
       ⟨"optionalInner", .optional (.cls "Inner"), .opt none⟩]),
    ("AllTypes",
      [⟨"id", .oid, .oid 7⟩,
       ⟨"boolean", .bool, .bool false⟩,
       ⟨"integer", .int32, .int32 0⟩,
       ⟨"floatingPoint", .double, .double ⟨0⟩⟩,
       ⟨"string", .string, .string ""⟩,
       ⟨"intArray", .vector .int32, .vec []⟩,
       ⟨"stringArray", .vector .string, .vec []⟩,
       ⟨"optionalInt", .optional .int32, .opt none⟩,
       ⟨"optionalString", .optional .string, .opt none⟩]),
    ("Example",
      [⟨"id", .optional .oid, .opt none⟩,
       ⟨"flag", .bool, .bool false⟩,
       ⟨"count", .int32, .int32 0⟩,
       ⟨"tags", .vector .string, .vec []⟩]) ]

/-- The class table of `testClasses`. -/
def testTable : ClassTable := tableOf testClasses

/-- A class `Wrapped` whose one member `id` is an optional of an optional
identifier. -/
def wrappedTable : ClassTable :=
  tableOf [("Wrapped", [⟨"id", .optional (.optional .oid), .opt none⟩])]

/-- A class `Preset` whose one member, the optional identifier `id`, carries a
default member initializer: `Preset instance{}` holds the identifier `o`. -/
def presetTable (o : Oid) : ClassTable :=
  fun n => if n = "Preset" then [⟨"id", .optional .oid, .opt (some (.oid o))⟩] else []

/-- A recursive class `Tree`: an int32 `value`, a vector `children` of `Tree`
and an optional vector `more` of `Tree`. -/
def treeTable : ClassTable :=
  tableOf [("Tree", [⟨"value", .int32, .int32 0⟩,
    ⟨"children", .vector (.cls "Tree"), .vec []⟩,
    ⟨"more", .optional (.vector (.cls "Tree")), .opt none⟩])]

/-- The `Tree` of depth `k` with one child, and the same tree once more under
`more`, at each level. -/
def chain : Nat → Val
  | 0 => .obj [.int32 0, .vec [], .opt none]
  | k + 1 => .obj [.int32 0, .vec [chain k], .opt (some (.vec [chain k]))]

/-- A class `Stamp` with a time point `at`, an optional of an optional int32
`level` and a 16-bit `port`. -/
def stampTable : ClassTable :=
  tableOf [("Stamp", [⟨"at", .timePoint, .timePoint 0⟩,
    ⟨"level", .optional (.optional .int32), .opt none⟩,
    ⟨"port", .ushort, .ushort 0⟩])]

/-- The record of the end-to-end example: no identifier, `flag` true, `count`
42, `tags` a and b. -/
def exampleRecord : Val :=
  .obj [.opt none, .bool true, .int32 42, .vec [.string "a", .string "b"]]

/-- The `OptionalClass` object of `OptionalClassTest`, with two of its five
strings. -/
def optionalRecord : Val :=
  .obj [.opt (some (.int32 42)), .opt (some (.string "Optional String")),
    .opt (some (.vec [.string "one", .string "two"])), .opt (some (.obj [.int32 42, .int32 24]))]

/-! ## Unfolding lemmas -/

section Monad
variable {α β : Type}

@[simp] theorem ok_bind (a : α) (f : α → Except Err β) : (Except.ok a >>= f) = f a := rfl

@[simp] theorem error_bind (e : Err) (f : α → Except Err β) :
    ((Except.error e : Except Err α) >>= f) = Except.error e := rfl

@[simp] theorem map_ok (a : α) (f : α → β) :
    Except.map f (Except.ok a : Except Err α) = Except.ok (f a) := rfl

@[simp] theorem map_error (e : Err) (f : α → β) :
    Except.map f (Except.error e : Except Err α) = Except.error e := rfl

@[simp] theorem pure_eq_ok (a : α) : (pure a : Except Err α) = Except.ok a := rfl

end Monad

variable (tbl : ClassTable)

theorem get_undecodable {T : Ty} (h : decodable T = false) (e : Element) :
    get tbl T e = .error .unsupportedType := by
  rw [get.eq_def]
  simp [h]

@[simp] theorem get_bool_eq (e : Element) : get tbl .bool e = (get_bool e).map Val.bool := by
  rw [get]; simp [decodable]

@[simp] theorem get_int32_eq (e : Element) : get tbl .int32 e = (get_int32 e).map Val.int32 := by
  rw [get]; simp [decodable]

@[simp] theorem get_int64_eq (e : Element) : get tbl .int64 e = (get_int64 e).map Val.int64 := by
  rw [get]; simp [decodable]

@[simp] theorem get_double_eq (e : Element) :
    get tbl .double e = (get_double e).map Val.double := by
  rw [get]; simp [decodable]

@[simp] theorem get_string_eq (e : Element) :
    get tbl .string e = (get_string e).map Val.string := by
  rw [get]; simp [decodable]

@[simp] theorem get_timePoint_eq (e : Element) :
    get tbl .timePoint e = (get_date e).map (fun ms => Val.timePoint (time_point_of_date ms)) := by
  rw [get]; simp [decodable]

@[simp] theorem get_short_eq (e : Element) :
    get tbl .short e = (get_int32 e).map (fun v => Val.short (toInt16 (toUInt16 v))) := by
  rw [get]; simp [decodable]

@[simp] theorem get_ushort_eq (e : Element) :
    get tbl .ushort e = (get_int32 e).map (fun v => Val.ushort (toUInt16 v)) := by
  rw [get]; simp [decodable]

@[simp] theorem get_oid_eq (e : Element) : get tbl .oid e = (get_oid e).map Val.oid := by
  rw [get]; simp [decodable]

@[simp] theorem get_other_eq (a : Bool) (e : Element) :
    get tbl (.other a) e = .error .unsupportedType := by
  rw [get]; simp [decodable]

theorem get_optional_eq (U : Ty) (e : Element) :
    get tbl (.optional U) e =
      if decodable U then
        if (match e with
            | some c => c.type != Kind.k_null
            | none => false) then
          (get tbl U e).map (fun v => Val.opt (some v))
        else .ok (.opt none)
      else .error .unsupportedType := by
  rw [get.eq_def]
  cases e <;> simp [decodable]

theorem get_vector_eq (U : Ty) (e : Element) :
    get tbl (.vector U) e =
      if decodable U then
        match get_array e with
        | .ok elems => (get_elements tbl U elems).map Val.vec
        | .error err => .error err
      else .error .unsupportedType := by
  rw [get]
  simp only [decodable]
  split
  · split <;> rename_i h1 <;> simp [h1]
  · rfl

theorem get_cls_eq (n : String) (e : Element) :
    get tbl (.cls n) e =
      match get_document e with
      | .ok doc => fromBSON tbl n doc
      | .error err => .error err := by
  rw [get]
  simp only [decodable, if_true]
  split <;> rename_i h1 <;> simp [h1]

@[simp] theorem get_elements_nil (U : Ty) : get_elements tbl U [] = .ok [] := by
  rw [get_elements]

@[simp] theorem get_elements_cons (U : Ty) (el : Cell) (rest : List Cell) :
    get_elements tbl U (el :: rest) =
      (get tbl U (some el) >>= fun v => get_elements tbl U rest >>= fun vs => pure (v :: vs)) := by
  rw [get_elements]

theorem deserializeMember_eq (T : Ty) (member : Val) (doc : Doc) (key : String) :
    deserializeMember tbl T member doc key =
      match find doc key with
      | some c => get tbl T (some c)
      | none => .ok member := by
  rw [deserializeMember]
  split <;> rename_i h1 <;> simp [h1]

@[simp] theorem BSON_FROM_BSON_1_nil (doc : Doc) : BSON_FROM_BSON_1 tbl [] doc = .ok [] := by
  rw [BSON_FROM_BSON_1]

@[simp] theorem BSON_FROM_BSON_1_cons (x : Field) (rest : List Field) (doc : Doc) :
    BSON_FROM_BSON_1 tbl (x :: rest) doc =
      (deserializeMember tbl x.ty x.dflt doc x.name >>= fun m1 =>
        BSON_FROM_BSON_1 tbl rest doc >>= fun ms1 => pure (m1 :: ms1)) := by
  rw [BSON_FROM_BSON_1]

theorem fromBSON_eq (n : String) (doc : Doc) :
    fromBSON tbl n doc = (BSON_FROM_BSON_1 tbl (tbl n) doc).map Val.obj := by
  rw [fromBSON]

/-! ## Overload resolution -/

theorem appendable_primitive {T : Ty} (h : appendable T = true) : is_primitive_v T = true := by
  cases T <;> simp_all [appendable, is_primitive_v, is_arithmetic_v]

theorem appendable_serializable {T : Ty} (h : appendable T = true) : serializable T = true := by
  cases T <;> simp_all [appendable, serializable]

theorem primitive_serializable {T : Ty} (h : is_primitive_v T = true) :
    serializable T = appendable T := by
  cases T <;> simp_all [appendable, serializable, is_primitive_v, is_arithmetic_v]

@[simp] theorem is_primitive_v_vector (E : Ty) : is_primitive_v (.vector E) = false := by
  simp [is_primitive_v, is_arithmetic_v]

@[simp] theorem is_primitive_v_optional (U : Ty) : is_primitive_v (.optional U) = false := by
  simp [is_primitive_v, is_arithmetic_v]

@[simp] theorem is_primitive_v_cls (n : String) : is_primitive_v (.cls n) = false := by
  simp [is_primitive_v, is_arithmetic_v]

@[simp] theorem is_primitive_v_timePoint : is_primitive_v .timePoint = false := by
  simp [is_primitive_v, is_arithmetic_v]

theorem serializable_vector (E : Ty) :
    serializable (.vector E) = if is_primitive_v E then appendable E else has_toBSON E := by
  simp [serializable]

theorem serializable_optional (U : Ty) :
    serializable (.optional U) =
      if is_primitive_v U then appendable U
      else
        match U with
        | .vector E => if is_primitive_v E then appendable E else has_toBSON E
        | _ => serializable U := by
  cases U <;> simp [serializable]

@[simp] theorem appendPrimitives_nil (T : Ty) (arr : List Cell) :
    appendPrimitives T arr [] = .ok arr := rfl

@[simp] theorem appendPrimitives_cons (T : Ty) (arr : List Cell) (el : Val) (rest : List Val) :
    appendPrimitives T arr (el :: rest) =
      (scalarCell T el >>= fun c => appendPrimitives T (arr ++ [c]) rest) := rfl

theorem serializeMember_unserializable {T : Ty} (h : serializable T = false) (doc : Doc)
    (key : String) (value : Val) : serializeMember tbl T doc key value = .error .unsupportedType := by
  rw [serializeMember.eq_def]
  simp [h]

theorem serializeMember_appendable (T : Ty) (h : appendable T = true) (doc : Doc) (key : String)
    (value : Val) : serializeMember tbl T doc key value = serializeMember_primitive T doc key value := by
  rw [serializeMember.eq_def]
  simp [appendable_primitive h, appendable_serializable h]

@[simp] theorem serializeMember_bool (doc : Doc) (key : String) (value : Val) :
    serializeMember tbl .bool doc key value = serializeMember_primitive .bool doc key value :=
  serializeMember_appendable tbl .bool rfl doc key value

@[simp] theorem serializeMember_int32 (doc : Doc) (key : String) (value : Val) :
    serializeMember tbl .int32 doc key value = serializeMember_primitive .int32 doc key value :=
  serializeMember_appendable tbl .int32 rfl doc key value

@[simp] theorem serializeMember_int64 (doc : Doc) (key : String) (value : Val) :
    serializeMember tbl .int64 doc key value = serializeMember_primitive .int64 doc key value :=
  serializeMember_appendable tbl .int64 rfl doc key value

@[simp] theorem serializeMember_double (doc : Doc) (key : String) (value : Val) :
    serializeMember tbl .double doc key value = serializeMember_primitive .double doc key value :=
  serializeMember_appendable tbl .double rfl doc key value

@[simp] theorem serializeMember_string (doc : Doc) (key : String) (value : Val) :
    serializeMember tbl .string doc key value = serializeMember_primitive .string doc key value :=
  serializeMember_appendable tbl .string rfl doc key value

@[simp] theorem serializeMember_oid (doc : Doc) (key : String) (value : Val) :
    serializeMember tbl .oid doc key value = serializeMember_primitive .oid doc key value :=
  serializeMember_appendable tbl .oid rfl doc key value

@[simp] theorem serializeMember_short (doc : Doc) (key : String) (value : Val) :
    serializeMember tbl .short doc key value = serializeMember_primitive .short doc key value :=
  serializeMember_appendable tbl .short rfl doc key value

@[simp] theorem serializeMember_ushort (doc : Doc) (key : String) (value : Val) :
    serializeMember tbl .ushort doc key value = serializeMember_primitive .ushort doc key value :=
  serializeMember_appendable tbl .ushort rfl doc key value

@[simp] theorem serializeMember_timePoint (doc : Doc) (key : String) (value : Val) :
    serializeMember tbl .timePoint doc key value = serializeMember_time_point doc key value := by
  rw [serializeMember]
  simp [serializable]

@[simp] theorem serializeMember_cls (n : String) (doc : Doc) (key : String) (value : Val) :
    serializeMember tbl (.cls n) doc key value = serializeMember_class tbl n doc key value := by
  rw [serializeMember]
  simp [serializable]

theorem serializeMember_vector (E : Ty) (doc : Doc) (key : String) (value : Val) :
    serializeMember tbl (.vector E) doc key value =
      if is_primitive_v E then
        if appendable E then serializeMember_vector_primitive E doc key value
        else .error .unsupportedType
      else
        if has_toBSON E then serializeMember_vector_class tbl E doc key value
        else .error .unsupportedType := by
  rw [serializeMember]
  simp only [serializable_vector, is_primitive_v_vector]
  by_cases hp : is_primitive_v E = true <;> by_cases ha : appendable E = true <;>
    by_cases hc : has_toBSON E = true <;> simp [hp, ha, hc]

theorem serializeMember_optional_eq (U : Ty) (doc : Doc) (key : String) (value : Val) :
    serializeMember tbl (.optional U) doc key value =
      if is_primitive_v U then
        if appendable U then serializeMember_optional_primitive U doc key value
        else .error .unsupportedType
      else
        match U with
        | .vector E =>
          if is_primitive_v E then
            if appendable E then serializeMember_optional_vector_primitive E doc key value
            else .error .unsupportedType
          else
            if has_toBSON E then serializeMember_optional_vector_class tbl E doc key value
            else .error .unsupportedType
        | _ =>
          if serializable U then serializeMember_optional tbl U doc key value
          else .error .unsupportedType := by
  rw [serializeMember.eq_def]
  simp only [serializable_optional, is_primitive_v_optional]
  by_cases hp : is_primitive_v U = true
  · by_cases ha : appendable U = true <;> simp [hp, ha]
  · cases U with
    | vector E =>
      by_cases hp2 : is_primitive_v E = true <;> by_cases ha : appendable E = true <;>
        by_cases hc : has_toBSON E = true <;> simp [hp2, ha, hc]
    | _ =>
      simp only [hp]
      generalize serializable _ = b
      cases b <;> simp

theorem is_std_vector_v_eq_true {U : Ty} (h : is_std_vector_v U = true) : ∃ E, U = .vector E := by
  cases U <;> simp [is_std_vector_v] at h
  exact ⟨_, rfl⟩

theorem serializable_optional_primitive {U : Ty} (hp : is_primitive_v U = true) :
    serializable (.optional U) = appendable U := by
  rw [serializable_optional]
  simp [hp]

theorem serializable_optional_vector (E : Ty) :
    serializable (.optional (.vector E)) =
      if is_primitive_v E then appendable E else has_toBSON E := by
  simp [serializable]

theorem serializable_optional_other {U : Ty} (hp : is_primitive_v U = false)
    (hv : is_std_vector_v U = false) : serializable (.optional U) = serializable U := by
  rw [serializable_optional]
  cases U <;> simp_all [is_std_vector_v]

theorem serializeMember_optional_of_primitive {U : Ty} (ha : appendable U = true) (doc : Doc)
    (key : String) (value : Val) :
    serializeMember tbl (.optional U) doc key value =
      serializeMember_optional_primitive U doc key value := by
  rw [serializeMember_optional_eq]
  simp [appendable_primitive ha, ha]

theorem serializeMember_optional_vector_of_primitive {E : Ty} (ha : appendable E = true)
    (doc : Doc) (key : String) (value : Val) :
    serializeMember tbl (.optional (.vector E)) doc key value =
      serializeMember_optional_vector_primitive E doc key value := by
  rw [serializeMember_optional_eq]
  simp [appendable_primitive ha, ha]

theorem serializeMember_optional_vector_cls (n : String) (doc : Doc) (key : String)
    (value : Val) :
    serializeMember tbl (.optional (.vector (.cls n))) doc key value =
      serializeMember_optional_vector_class tbl (.cls n) doc key value := by
  rw [serializeMember_optional_eq]
  simp [has_toBSON]

theorem serializeMember_optional_other {U : Ty} (hp : is_primitive_v U = false)
    (hv : is_std_vector_v U = false) (hs : serializable U = true) (doc : Doc) (key : String)
    (value : Val) :
    serializeMember tbl (.optional U) doc key value =
      serializeMember_optional tbl U doc key value := by
  rw [serializeMember_optional_eq]
  cases U <;> simp_all [is_std_vector_v]

theorem serializeMember_vector_of_primitive {E : Ty} (ha : appendable E = true) (doc : Doc)
    (key : String) (value : Val) :
    serializeMember tbl (.vector E) doc key value =
      serializeMember_vector_primitive E doc key value := by
  rw [serializeMember_vector]
  simp [appendable_primitive ha, ha]

theorem serializeMember_vector_cls (n : String) (doc : Doc) (key : String) (value : Val) :
    serializeMember tbl (.vector (.cls n)) doc key value =
      serializeMember_vector_class tbl (.cls n) doc key value := by
  rw [serializeMember_vector]
  simp [has_toBSON]

/-- The element types of a vector that serializes: an appendable primitive or
a class. -/
theorem element_cases {E : Ty}
    (h : (if is_primitive_v E then appendable E else has_toBSON E) = true) :
    appendable E = true ∨ ∃ n, E = .cls n := by
  by_cases hp : is_primitive_v E = true
  · left
    simpa [hp] using h
  · right
    simp only [hp] at h
    cases E <;> simp [has_toBSON] at h
    exact ⟨_, rfl⟩

/-! ## The overloads that recurse -/

@[simp] theorem serializeMember_vector_class_vec (T : Ty) (doc : Doc) (key : String)
    (elems : List Val) :
    serializeMember_vector_class tbl T doc key (.vec elems) =
      (appendObjects tbl T [] elems >>= fun arr => pure (append doc key (.array arr))) := by
  rw [serializeMember_vector_class]

@[simp] theorem serializeMember_optional_vector_class_some (T : Ty) (doc : Doc) (key : String)
    (elems : List Val) :
    serializeMember_optional_vector_class tbl T doc key (.opt (some (.vec elems))) =
      (appendObjects tbl T [] elems >>= fun arr => pure (append doc key (.array arr))) := by
  rw [serializeMember_optional_vector_class]

@[simp] theorem serializeMember_optional_vector_class_none (T : Ty) (doc : Doc) (key : String) :
    serializeMember_optional_vector_class tbl T doc key (.opt none) =
      .ok (append doc key .null) := by
  rw [serializeMember_optional_vector_class]

theorem serializeMember_class_eq (n : String) (doc : Doc) (key : String) (value : Val) :
    serializeMember_class tbl n doc key value =
      (toBSON tbl n value >>= fun d => pure (append doc key (.document d))) := by
  rw [serializeMember_class]

@[simp] theorem serializeMember_optional_some (T : Ty) (doc : Doc) (key : String) (v : Val) :
    serializeMember_optional tbl T doc key (.opt (some v)) = serializeMember tbl T doc key v := by
  rw [serializeMember_optional]

@[simp] theorem serializeMember_optional_none (T : Ty) (doc : Doc) (key : String) :
    serializeMember_optional tbl T doc key (.opt none) = .ok (append doc key .null) := by
  rw [serializeMember_optional]

@[simp] theorem appendObjects_nil (T : Ty) (arr : List Cell) :
    appendObjects tbl T arr [] = .ok arr := by
  rw [appendObjects]

@[simp] theorem appendObjects_cons (n : String) (arr : List Cell) (el : Val) (rest : List Val) :
    appendObjects tbl (.cls n) arr (el :: rest) =
      (toBSON tbl n el >>= fun d => appendObjects tbl (.cls n) (arr ++ [.document d]) rest) := by
  rw [appendObjects]

@[simp] theorem BSON_TO_BSON_1_nil (doc : Doc) (members : List Val) :
    BSON_TO_BSON_1 tbl [] doc members = .ok doc := by
  rw [BSON_TO_BSON_1]

@[simp] theorem BSON_TO_BSON_1_cons_nil (x : Field) (rest : List Field) (doc : Doc) :
    BSON_TO_BSON_1 tbl (x :: rest) doc [] = .error .illTyped := by
  rw [BSON_TO_BSON_1]

@[simp] theorem BSON_TO_BSON_1_cons (x : Field) (rest : List Field) (doc : Doc) (m : Val)
    (ms : List Val) :
    BSON_TO_BSON_1 tbl (x :: rest) doc (m :: ms) =
      (serializeMember tbl x.ty doc x.name m >>= fun doc1 => BSON_TO_BSON_1 tbl rest doc1 ms) := by
  rw [BSON_TO_BSON_1]

@[simp] theorem toBSON_obj (n : String) (members : List Val) :
    toBSON tbl n (.obj members) = BSON_TO_BSON_1 tbl (tbl n) [] members := by
  rw [toBSON]

/-! ## Lemmas on documents -/

theorem find_append (a b : Doc) (key : String) :
    find (a ++ b) key = (find a key).orElse (fun _ => find b key) := by
  induction a with
  | nil => simp [find]
  | cons p rest ih =>
    obtain ⟨k, c⟩ := p
    simp only [List.cons_append, find]
    split
    · simp
    · exact ih

theorem find_eq_none_iff (d : Doc) (key : String) : find d key = none ↔ key ∉ keys d := by
  induction d with
  | nil => simp [find, keys]
  | cons p rest ih =>
    obtain ⟨k, c⟩ := p
    simp only [find, keys, List.map_cons, List.mem_cons, not_or]
    split
    · rename_i h
      simp [h]
    · rename_i h
      simp only [keys] at ih
      rw [ih]
      constructor
      · intro h2
        exact ⟨fun h3 => h h3.symm, h2⟩
      · intro h2
        exact h2.2

@[simp] theorem keys_append (a b : Doc) : keys (a ++ b) = keys a ++ keys b := by
  simp [keys]

@[simp] theorem keys_nil : keys ([] : Doc) = [] := rfl

theorem keys_keyed (key : String) (oc : Option Cell) :
    keys (keyed key oc) = if oc.isNone then [] else [key] := by
  cases oc <;> simp [keyed, keys]

theorem find_keyed (key : String) (oc : Option Cell) : find (keyed key oc) key = oc := by
  cases oc <;> simp [keyed, find]

theorem find_keyed_ne (key y : String) (oc : Option Cell) (h : key ≠ y) :
    find (keyed key oc) y = none := by
  cases oc <;> simp [keyed, find, h]

/-! ## Well-typed values of accepted types always serialize -/

theorem scalarCell_total {T : Ty} {v : Val} (ha : appendable T = true) (hv : HasType tbl T v) :
    ∃ c, scalarCell T v = .ok c := by
  cases hv <;> simp_all [appendable, scalarCell]

theorem appendPrimitives_total {T : Ty} (ha : appendable T = true) (elems : List Val)
    (hv : ∀ v ∈ elems, HasType tbl T v) :
    ∃ cells, List.Forall₂ (fun e c => scalarCell T e = .ok c) elems cells ∧
      ∀ arr, appendPrimitives T arr elems = .ok (arr ++ cells) := by
  induction elems with
  | nil => exact ⟨[], List.Forall₂.nil, by simp⟩
  | cons e rest ih =>
    obtain ⟨c, hc⟩ := scalarCell_total tbl ha (hv e (List.mem_cons_self _ _))
    obtain ⟨cells, h1, h2⟩ := ih (fun v hv1 => hv v (List.mem_cons_of_mem _ hv1))
    refine ⟨c :: cells, List.Forall₂.cons hc h1, ?_⟩
    intro arr
    simp [hc, h2]

theorem toBSON_of_serializeMember {n : String} {doc d1 : Doc} {key : String} {v : Val}
    (h : serializeMember tbl (.cls n) doc key v = .ok d1) :
    ∃ d, toBSON tbl n v = .ok d ∧ d1 = doc ++ [(key, .document d)] := by
  rw [serializeMember_cls, serializeMember_class_eq] at h
  cases hd : toBSON tbl n v with
  | error e => simp [hd] at h
  | ok d =>
    simp only [hd, ok_bind, pure_eq_ok, append, Except.ok.injEq] at h
    exact ⟨d, rfl, h.symm⟩

theorem appendObjects_total (n : String) (elems : List Val)
    (hv : ∀ v ∈ elems, ∃ d, toBSON tbl n v = .ok d) :
    ∃ cells, List.Forall₂ (fun e c => ∃ d, toBSON tbl n e = .ok d ∧ c = .document d) elems cells ∧
      ∀ arr, appendObjects tbl (.cls n) arr elems = .ok (arr ++ cells) := by
  induction elems with
  | nil => exact ⟨[], List.Forall₂.nil, by simp⟩
  | cons e rest ih =>
    obtain ⟨d, hd⟩ := hv e (List.mem_cons_self _ _)
    obtain ⟨cells, h1, h2⟩ := ih (fun v hv1 => hv v (List.mem_cons_of_mem _ hv1))
    refine ⟨.document d :: cells, List.Forall₂.cons ⟨d, hd, rfl⟩ h1, ?_⟩
    intro arr
    simp [hd, h2]

/-! ## The keys a record writes -/

theorem writtenKeys_subset (fs : List Field) (ms : List Val) :
    ∀ x ∈ writtenKeys fs ms, x ∈ fs.map Field.name := by
  induction fs generalizing ms with
  | nil => simp [writtenKeys]
  | cons f fs ih =>
    cases ms with
    | nil => simp [writtenKeys]
    | cons m ms =>
      intro x hx
      simp only [writtenKeys] at hx
      split at hx
      · exact List.mem_cons_of_mem _ (ih ms x hx)
      · rcases List.mem_cons.mp hx with h | h
        · simp [h]
        · exact List.mem_cons_of_mem _ (ih ms x h)

theorem writtenKeys_nodup (fs : List Field) (ms : List Val) (hnd : (fs.map Field.name).Nodup) :
    (writtenKeys fs ms).Nodup := by
  induction fs generalizing ms with
  | nil => simp [writtenKeys]
  | cons f fs ih =>
    cases ms with
    | nil => simp [writtenKeys]
    | cons m ms =>
      simp only [List.map_cons, List.nodup_cons] at hnd
      simp only [writtenKeys]
      split
      · exact ih ms hnd.2
      · exact List.nodup_cons.mpr ⟨fun h => hnd.1 (writtenKeys_subset fs ms _ h), ih ms hnd.2⟩

theorem BSON_TO_BSON_1_total (fs : List Field) (ms : List Val)
    (hty : List.Forall₂ (fun f v => HasType tbl f.ty v) fs ms)
    (ih : ∀ f ∈ fs, ∀ m ∈ ms, HasType tbl f.ty m →
      ∃ oc : Option Cell, (oc = none ↔ omitsKey f.ty m = true) ∧
        ∀ doc key, serializeMember tbl f.ty doc key m = .ok (doc ++ keyed key oc)) :
    ∃ d, keys d = writtenKeys fs ms ∧ (∀ doc, BSON_TO_BSON_1 tbl fs doc ms = .ok (doc ++ d)) ∧
      ((fs.map Field.name).Nodup → ∀ f m, (f, m) ∈ fs.zip ms → ∀ doc key,
        serializeMember tbl f.ty doc key m = .ok (doc ++ keyed key (find d f.name))) := by
  induction hty with
  | nil => exact ⟨[], by simp [writtenKeys], by simp, by simp⟩
  | @cons f m fs ms hfm _ ih2 =>
    obtain ⟨oc, hoc, hs⟩ := ih f (List.mem_cons_self _ _) m (List.mem_cons_self _ _) hfm
    obtain ⟨d, hk, hd, hl⟩ := ih2 (fun f1 hf1 m1 hm1 h1 =>
      ih f1 (List.mem_cons_of_mem _ hf1) m1 (List.mem_cons_of_mem _ hm1) h1)
    refine ⟨keyed f.name oc ++ d, ?_, ?_, ?_⟩
    · simp only [keys_append, keys_keyed, writtenKeys, hk]
      cases oc with
      | none => simp [hoc.mp rfl]
      | some c =>
        have : omitsKey f.ty m ≠ true := fun h => by simpa using hoc.mpr h
        simp [this]
    · intro doc
      simp [hs, hd]
    · intro hnd f1 m1 hmem doc key
      simp only [List.map_cons, List.nodup_cons] at hnd
      rw [find_append]
      simp only [List.zip_cons_cons, List.mem_cons, Prod.mk.injEq] at hmem
      rcases hmem with ⟨rfl, rfl⟩ | hmem
      · have hnone : find d f1.name = none := by
          rw [find_eq_none_iff, hk]
          exact fun h => hnd.1 (writtenKeys_subset fs ms _ h)
        rw [find_keyed, hnone]
        cases oc <;> simpa using hs doc key
      · have hne : f.name ≠ f1.name := by
          intro h
          apply hnd.1
          rw [h]
          exact List.mem_map_of_mem _ (List.of_mem_zip hmem).1
        rw [find_keyed_ne _ _ _ hne]
        simpa using hl hnd.2 f1 m1 hmem doc key

/-- The array cells of a vector whose element type serializes. -/
theorem elements_total {E : Ty} {elems : List Val} {k : Nat}
    (hE : appendable E = true ∨ ∃ n, E = .cls n)
    (hv : ∀ v ∈ elems, HasType tbl E v) (hk : sizeOf elems ≤ k)
    (ih : ∀ (v : Val) (T : Ty), sizeOf v ≤ k → serializable T = true → HasType tbl T v →
      ∃ oc : Option Cell, (oc = none ↔ omitsKey T v = true) ∧
        ∀ doc key, serializeMember tbl T doc key v = .ok (doc ++ keyed key oc)) :
    ∃ cells, ∀ doc key,
      serializeMember tbl (.vector E) doc key (.vec elems) = .ok (doc ++ [(key, .array cells)]) ∧
      serializeMember tbl (.optional (.vector E)) doc key (.opt (some (.vec elems))) =
        .ok (doc ++ [(key, .array cells)]) := by
  rcases hE with ha | ⟨n, rfl⟩
  · obtain ⟨cells, _, h2⟩ := appendPrimitives_total tbl ha elems hv
    refine ⟨cells, fun doc key => ⟨?_, ?_⟩⟩
    · rw [serializeMember_vector_of_primitive tbl ha]
      simp [serializeMember_vector_primitive, h2, append]
    · rw [serializeMember_optional_vector_of_primitive tbl ha]
      simp [serializeMember_optional_vector_primitive, h2, append]
  · have hall : ∀ v ∈ elems, ∃ d, toBSON tbl n v = .ok d := by
      intro v hmem
      have hlt := List.sizeOf_lt_of_mem hmem
      obtain ⟨oc, _, h2⟩ := ih v (.cls n) (by omega) rfl (hv v hmem)
      obtain ⟨d, hd, _⟩ := toBSON_of_serializeMember tbl (h2 [] "")
      exact ⟨d, hd⟩
    obtain ⟨cells, _, h2⟩ := appendObjects_total tbl n elems hall
    refine ⟨cells, fun doc key => ⟨?_, ?_⟩⟩
    · rw [serializeMember_vector_cls]
      simp [h2, append]
    · rw [serializeMember_optional_vector_cls]
      simp [h2, append]

theorem serializeMember_total_aux (hacc : Accepted tbl) :
    ∀ (k : Nat) (v : Val) (T : Ty), sizeOf v ≤ k → serializable T = true → HasType tbl T v →
      ∃ oc : Option Cell, (oc = none ↔ omitsKey T v = true) ∧
        ∀ doc key, serializeMember tbl T doc key v = .ok (doc ++ keyed key oc) := by
  intro k
  induction k with
  | zero =>
    intro v T hk
    cases v <;> simp at hk
  | succ k ih =>
    intro v T hk hs hv
    cases hv with
    | bool b => exact ⟨some (.bool b), by simp [omitsKey], by simp [serializeMember_primitive, scalarCell, append, keyed]⟩
    | int32 x => exact ⟨some (.int32 x), by simp [omitsKey], by simp [serializeMember_primitive, scalarCell, append, keyed]⟩
    | int64 x => exact ⟨some (.int64 x), by simp [omitsKey], by simp [serializeMember_primitive, scalarCell, append, keyed]⟩
    | double x => exact ⟨some (.double x), by simp [omitsKey], by simp [serializeMember_primitive, scalarCell, append, keyed]⟩
    | string x => exact ⟨some (.utf8 x), by simp [omitsKey], by simp [serializeMember_primitive, scalarCell, append, keyed]⟩
    | timePoint x => exact ⟨some (.date (b_date x)), by simp [omitsKey], by simp [serializeMember_time_point, append, keyed]⟩
    | short x => exact ⟨some (.int32 x), by simp [omitsKey], by simp [serializeMember_primitive, scalarCell, append, keyed]⟩
    | ushort x => exact ⟨some (.int32 x), by simp [omitsKey], by simp [serializeMember_primitive, scalarCell, append, keyed]⟩
    | oid x => exact ⟨some (.oid x), by simp [omitsKey], by simp [serializeMember_primitive, scalarCell, append, keyed]⟩
    | none U =>
      cases hp : is_primitive_v U with
      | true =>
        rw [serializable_optional_primitive hp] at hs
        by_cases ho : U = .oid
        · refine ⟨none, by simp [omitsKey, ho], ?_⟩
          intro doc key
          rw [serializeMember_optional_of_primitive tbl hs]
          simp [serializeMember_optional_primitive, ho, keyed]
        · refine ⟨some .null, by simp [omitsKey, ho], ?_⟩
          intro doc key
          rw [serializeMember_optional_of_primitive tbl hs]
          simp [serializeMember_optional_primitive, ho, keyed, append]
      | false =>
        have ho : U ≠ .oid := by
          intro h
          simp [h, is_primitive_v] at hp
        refine ⟨some .null, by simp [omitsKey, ho], ?_⟩
        intro doc key
        cases hvec : is_std_vector_v U with
        | true =>
          obtain ⟨E, rfl⟩ := is_std_vector_v_eq_true hvec
          rw [serializable_optional_vector] at hs
          rcases element_cases hs with ha | ⟨n, rfl⟩
          · rw [serializeMember_optional_vector_of_primitive tbl ha]
            simp [serializeMember_optional_vector_primitive, keyed, append]
          · rw [serializeMember_optional_vector_cls]
            simp [keyed, append]
        | false =>
          rw [serializable_optional_other hp hvec] at hs
          rw [serializeMember_optional_other tbl hp hvec hs]
          simp [keyed, append]
    | some U v hv =>
      have hsz : sizeOf v ≤ k := by
        simp only [Val.opt.sizeOf_spec, Option.some.sizeOf_spec] at hk
        omega
      cases hp : is_primitive_v U with
      | true =>
        rw [serializable_optional_primitive hp] at hs
        obtain ⟨c, hc⟩ := scalarCell_total tbl hs hv
        refine ⟨some c, by simp [omitsKey, hp], ?_⟩
        intro doc key
        rw [serializeMember_optional_of_primitive tbl hs]
        simp [serializeMember_optional_primitive, hc, keyed, append]
      | false =>
        cases hvec : is_std_vector_v U with
        | true =>
          obtain ⟨E, rfl⟩ := is_std_vector_v_eq_true hvec
          rw [serializable_optional_vector] at hs
          cases hv with
          | vec _ elems hel =>
            have hsz2 : sizeOf elems ≤ k := by
              simp only [Val.vec.sizeOf_spec] at hsz
              omega
            obtain ⟨cells, hcells⟩ := elements_total tbl (element_cases hs) hel hsz2 ih
            exact ⟨some (.array cells), by simp [omitsKey, is_std_vector_v],
              fun doc key => by simpa [keyed] using (hcells doc key).2⟩
        | false =>
          rw [serializable_optional_other hp hvec] at hs
          obtain ⟨oc, hoc, h2⟩ := ih v _ hsz hs hv
          refine ⟨oc, ?_, ?_⟩
          · rw [hoc]
            simp [omitsKey, hp, hvec]
          · intro doc key
            rw [serializeMember_optional_other tbl hp hvec hs]
            simp [h2]
    | vec E elems hel =>
      have hsz2 : sizeOf elems ≤ k := by
        simp only [Val.vec.sizeOf_spec] at hk
        omega
      rw [serializable_vector] at hs
      obtain ⟨cells, hcells⟩ := elements_total tbl (element_cases hs) hel hsz2 ih
      exact ⟨some (.array cells), by simp [omitsKey],
        fun doc key => by simpa [keyed] using (hcells doc key).1⟩
    | obj n ms hms =>
      have hsz2 : sizeOf ms ≤ k := by
        simp only [Val.obj.sizeOf_spec] at hk
        omega
      obtain ⟨d, _, hd, _⟩ := BSON_TO_BSON_1_total tbl (tbl n) ms hms (by
        intro f hf m hm hfm
        have hlt := List.sizeOf_lt_of_mem hm
        exact ih m f.ty (by omega) (hacc n f hf).2 hfm)
      refine ⟨some (.document d), by simp [omitsKey], ?_⟩
      intro doc key
      simp [serializeMember_class_eq, hd, append, keyed]

/-- A well-typed value of a type that serializes, in a program whose classes
compile: `serializeMember` returns the builder with at most one pair added, and
adds none exactly when the value `omitsKey`. -/
theorem serializeMember_total (hacc : Accepted tbl) {T : Ty} {v : Val}
    (hs : serializable T = true) (hv : HasType tbl T v) :
    ∃ oc : Option Cell, (oc = none ↔ omitsKey T v = true) ∧
      ∀ doc key, serializeMember tbl T doc key v = .ok (doc ++ keyed key oc) :=
  serializeMember_total_aux tbl hacc (sizeOf v) v T (le_refl _) hs hv

/-- A well-typed object of a class, in a program whose classes compile: `toBSON`
returns a document whose keys are the `writtenKeys`, and when the listed names
are distinct the cell found under the name of a member is the one
`serializeMember` writes for that member. -/
theorem toBSON_total (hacc : Accepted tbl) {n : String} {ms : List Val}
    (hv : HasType tbl (.cls n) (.obj ms)) :
    ∃ d, toBSON tbl n (.obj ms) = .ok d ∧ keys d = writtenKeys (tbl n) ms ∧
      (((tbl n).map Field.name).Nodup → ∀ f m, (f, m) ∈ (tbl n).zip ms → ∀ doc key,
        serializeMember tbl f.ty doc key m = .ok (doc ++ keyed key (find d f.name))) := by
  cases hv with
  | obj _ _ hms =>
    obtain ⟨d, hk, hd, hl⟩ := BSON_TO_BSON_1_total tbl (tbl n) ms hms (by
      intro f hf m _ hfm
      exact serializeMember_total tbl hacc (hacc n f hf).2 hfm)
    exact ⟨d, by simpa using hd [], hk, hl⟩

/-! ## Class tables given by a list of classes -/

theorem tableOf_forall {P : Field → Prop} {classes : List (String × List Field)}
    (h : ∀ c ∈ classes, ∀ f ∈ c.2, P f) : ∀ n, ∀ f ∈ tableOf classes n, P f := by
  intro n f hf
  unfold tableOf at hf
  split at hf
  · rename_i c hc
    exact h c (List.mem_of_find?_eq_some hc) f hf
  · simp at hf

theorem tableOf_forall_class {P : List Field → Prop} {classes : List (String × List Field)}
    (h0 : P []) (h : ∀ c ∈ classes, P c.2) : ∀ n, P (tableOf classes n) := by
  intro n
  unfold tableOf
  split
  · rename_i c hc
    exact h c (List.mem_of_find?_eq_some hc)
  · exact h0

theorem testTable_accepted : Accepted testTable :=
  tableOf_forall (P := fun f => decodable f.ty = true ∧ serializable f.ty = true) (by decide)

theorem testTable_distinctNames : DistinctNames testTable :=
  tableOf_forall_class (P := fun fs => (fs.map Field.name).Nodup) (by decide) (by decide)

theorem exampleRecord_hasType : HasType testTable (.cls "Example") exampleRecord := by
  unfold exampleRecord
  exact HasType.obj "Example" _
    (List.Forall₂.cons (HasType.none .oid)
      (List.Forall₂.cons (HasType.bool true)
        (List.Forall₂.cons (HasType.int32 42 (by decide) (by decide))
          (List.Forall₂.cons
            (HasType.vec .string _ (by
              intro v hv
              simp only [List.mem_cons, List.mem_singleton, List.not_mem_nil, or_false] at hv
              rcases hv with rfl | rfl <;> exact HasType.string _))
            List.Forall₂.nil))))

theorem inner_hasType (a b : Int) (h1 : -2147483648 ≤ a) (h2 : a ≤ 2147483647)
    (h3 : -2147483648 ≤ b) (h4 : b ≤ 2147483647) :
    HasType testTable (.cls "Inner") (.obj [.int32 a, .int32 b]) :=
  HasType.obj "Inner" _
    (List.Forall₂.cons (HasType.int32 a h1 h2)
      (List.Forall₂.cons (HasType.int32 b h3 h4) List.Forall₂.nil))

theorem optionalRecord_hasType : HasType testTable (.cls "OptionalClass") optionalRecord := by
  unfold optionalRecord
  exact HasType.obj "OptionalClass" _
    (List.Forall₂.cons (HasType.some _ _ (HasType.int32 42 (by decide) (by decide)))
      (List.Forall₂.cons (HasType.some _ _ (HasType.string _))
        (List.Forall₂.cons
          (HasType.some _ _ (HasType.vec .string _ (by
            intro v hv
            simp only [List.mem_cons, List.mem_singleton, List.not_mem_nil, or_false] at hv
            rcases hv with rfl | rfl <;> exact HasType.string _)))
          (List.Forall₂.cons
            (HasType.some _ _
              (inner_hasType 42 24 (by decide) (by decide) (by decide) (by decide)))
            List.Forall₂.nil))))

theorem testTable_roundTrip : RoundTripTable testTable :=
  tableOf_forall (P := fun f => roundTripKind f.ty = true) (by decide)

theorem testTable_defaults : DefaultsValueInit testTable := by
  refine tableOf_forall (P := fun f => ValueInit testTable f.ty f.dflt) ?_
  intro c hc f hf
  simp only [testClasses, List.mem_cons, List.mem_singleton, List.not_mem_nil, or_false] at hc
  rcases hc with rfl | rfl | rfl | rfl | rfl | rfl <;>
    simp only [List.mem_cons, List.mem_singleton, List.not_mem_nil, or_false] at hf
  all_goals
    repeat' (rcases hf with rfl | hf)
  all_goals first
    | exact ValueInit.cls "Inner"
    | constructor

theorem wrappedTable_accepted : Accepted wrappedTable :=
  tableOf_forall (P := fun f => decodable f.ty = true ∧ serializable f.ty = true) (by decide)

theorem wrappedTable_distinctNames : DistinctNames wrappedTable :=
  tableOf_forall_class (P := fun fs => (fs.map Field.name).Nodup) (by decide) (by decide)

/-! ## The optional overloads -/

theorem serializeMember_optional_vector_class_unfold (T : Ty) (doc : Doc) (key : String)
    (v : Val) :
    serializeMember_optional_vector_class tbl T doc key (.opt (some v)) =
      serializeMember_vector_class tbl T doc key v := by
  cases v <;> simp [serializeMember_optional_vector_class, serializeMember_vector_class]

/-- A present optional is serialized as its value is. -/
theorem serializeMember_some (U : Ty) (doc : Doc) (key : String) (v : Val) :
    serializeMember tbl (.optional U) doc key (.opt (some v)) =
      serializeMember tbl U doc key v := by
  cases hp : is_primitive_v U with
  | true =>
    cases ha : appendable U with
    | true =>
      rw [serializeMember_optional_of_primitive tbl ha, serializeMember_appendable tbl U ha]
      rfl
    | false =>
      rw [serializeMember_unserializable tbl (by rw [serializable_optional_primitive hp, ha]),
        serializeMember_unserializable tbl (by rw [primitive_serializable hp, ha])]
  | false =>
    cases hvec : is_std_vector_v U with
    | true =>
      obtain ⟨E, rfl⟩ := is_std_vector_v_eq_true hvec
      cases hs : serializable (.vector E) with
      | false =>
        rw [serializeMember_unserializable tbl hs, serializeMember_unserializable tbl (by
          rw [serializable_optional_vector, ← serializable_vector, hs])]
      | true =>
        rw [serializable_vector] at hs
        rcases element_cases hs with ha | ⟨n, rfl⟩
        · rw [serializeMember_optional_vector_of_primitive tbl ha,
            serializeMember_vector_of_primitive tbl ha]
          cases v <;> rfl
        · rw [serializeMember_optional_vector_cls, serializeMember_vector_cls,
            serializeMember_optional_vector_class_unfold]
    | false =>
      cases hs : serializable U with
      | false =>
        rw [serializeMember_unserializable tbl hs, serializeMember_unserializable tbl (by
          rw [serializable_optional_other hp hvec, hs])]
      | true =>
        rw [serializeMember_optional_other tbl hp hvec hs, serializeMember_optional_some]

/-- An absent optional is serialized as a null cell, or as nothing when its
value type is the identifier. -/
theorem serializeMember_none (U : Ty) (hs : serializable (.optional U) = true) (doc : Doc)
    (key : String) :
    serializeMember tbl (.optional U) doc key (.opt none) =
      .ok (if U = .oid then doc else doc ++ [(key, .null)]) := by
  cases hp : is_primitive_v U with
  | true =>
    rw [serializable_optional_primitive hp] at hs
    rw [serializeMember_optional_of_primitive tbl hs]
    by_cases ho : U = .oid <;> simp [serializeMember_optional_primitive, ho, append]
  | false =>
    have ho : U ≠ .oid := by
      intro h
      simp [h, is_primitive_v] at hp
    simp only [ho, if_false]
    cases hvec : is_std_vector_v U with
    | true =>
      obtain ⟨E, rfl⟩ := is_std_vector_v_eq_true hvec
      rw [serializable_optional_vector] at hs
      rcases element_cases hs with ha | ⟨n, rfl⟩
      · rw [serializeMember_optional_vector_of_primitive tbl ha]
        simp [serializeMember_optional_vector_primitive, append]
      · rw [serializeMember_optional_vector_cls]
        simp [append]
    | false =>
      rw [serializable_optional_other hp hvec] at hs
      rw [serializeMember_optional_other tbl hp hvec hs]
      simp [append]

theorem keyed_eq_nil {key : String} {oc : Option Cell} (h : keyed key oc = []) : oc = none := by
  cases oc <;> simp_all [keyed]

theorem keyed_eq_singleton {key : String} {oc : Option Cell} {c : Cell}
    (h : keyed key oc = [(key, c)]) : oc = some c := by
  cases oc <;> simp_all [keyed]

/-! ## Errors of the decoder -/

theorem bind_eq_error {α β : Type} {x : Except Err α} {f : α → Except Err β} {e : Err}
    (h : (x >>= f) = .error e) : x = .error e ∨ ∃ a, x = .ok a ∧ f a = .error e := by
  cases x with
  | error e1 =>
    left
    simpa using h
  | ok a =>
    right
    exact ⟨a, rfl, by simpa using h⟩

theorem map_eq_error {α β : Type} {x : Except Err α} {f : α → β} {e : Err}
    (h : Except.map f x = .error e) : x = .error e := by
  cases x with
  | error e1 => simpa using h
  | ok a => simp at h

theorem get_elements_error (U : Ty) (elems : List Cell) (e : Err)
    (ih : ∀ c ∈ elems, ∀ e, get tbl U (some c) = .error e → e = .typeMismatch)
    (h : get_elements tbl U elems = .error e) : e = .typeMismatch := by
  induction elems with
  | nil => simp at h
  | cons el rest ih2 =>
    rw [get_elements_cons] at h
    rcases bind_eq_error h with h1 | ⟨v, _, h1⟩
    · exact ih el (List.mem_cons_self _ _) e h1
    · rcases bind_eq_error h1 with h2 | ⟨vs, _, h2⟩
      · exact ih2 (fun c hc => ih c (List.mem_cons_of_mem _ hc)) h2
      · simp at h2

theorem BSON_FROM_BSON_1_error (fs : List Field) (doc : Doc) (e : Err)
    (ih : ∀ f ∈ fs, ∀ e, deserializeMember tbl f.ty f.dflt doc f.name = .error e →
      e = .typeMismatch)
    (h : BSON_FROM_BSON_1 tbl fs doc = .error e) : e = .typeMismatch := by
  induction fs with
  | nil => simp at h
  | cons f rest ih2 =>
    rw [BSON_FROM_BSON_1_cons] at h
    rcases bind_eq_error h with h1 | ⟨v, _, h1⟩
    · exact ih f (List.mem_cons_self _ _) e h1
    · rcases bind_eq_error h1 with h2 | ⟨vs, _, h2⟩
      · exact ih2 (fun g hg => ih g (List.mem_cons_of_mem _ hg)) h2
      · simp at h2

/-- In a program whose classes compile, a `get` that compiles fails on a valid
element only with a type mismatch. -/
theorem get_error_typeMismatch (hdec : ∀ n, ∀ f ∈ tbl n, decodable f.ty = true) :
    ∀ (k : Nat) (c : Cell), sizeOf c ≤ k → ∀ T : Ty, decodable T = true →
      ∀ e, get tbl T (some c) = .error e → e = .typeMismatch := by
  intro k
  induction k with
  | zero =>
    intro c hc
    cases c <;> simp at hc
  | succ k ih =>
    intro c hc T
    induction T with
    | bool => intro _ e h; cases c <;> simp_all [get_bool]
    | int32 => intro _ e h; cases c <;> simp_all [get_int32]
    | int64 => intro _ e h; cases c <;> simp_all [get_int64]
    | double => intro _ e h; cases c <;> simp_all [get_double]
    | string => intro _ e h; cases c <;> simp_all [get_string]
    | timePoint => intro _ e h; cases c <;> simp_all [get_date]
    | short => intro _ e h; cases c <;> simp_all [get_int32]
    | ushort => intro _ e h; cases c <;> simp_all [get_int32]
    | oid => intro _ e h; cases c <;> simp_all [get_oid]
    | other a => intro hd; simp [decodable] at hd
    | optional U ihU =>
      intro hd e h
      have hdU : decodable U = true := by simpa [decodable] using hd
      rw [get_optional_eq] at h
      simp only [hdU, if_true] at h
      split at h
      · exact ihU hdU e (map_eq_error h)
      · simp at h
    | vector U _ =>
      intro hd e h
      have hdU : decodable U = true := by simpa [decodable] using hd
      rw [get_vector_eq] at h
      simp only [hdU, if_true] at h
      cases c with
      | array elems =>
        simp only [get_array] at h
        refine get_elements_error tbl U elems e ?_ (map_eq_error h)
        intro c1 hc1 e1 he1
        have hlt := List.sizeOf_lt_of_mem hc1
        simp only [Cell.array.sizeOf_spec] at hc
        exact ih c1 (by omega) U hdU e1 he1
      | _ => simp_all [get_array]
    | cls n =>
      intro _ e h
      rw [get_cls_eq] at h
      cases c with
      | document doc =>
        simp only [get_document] at h
        rw [fromBSON_eq] at h
        refine BSON_FROM_BSON_1_error tbl (tbl n) doc e ?_ (map_eq_error h)
        intro f hf e1 he1
        rw [deserializeMember_eq] at he1
        cases hfind : find doc f.name with
        | none => simp [hfind] at he1
        | some c1 =>
          simp only [hfind] at he1
          have hlt := find_sizeOf_lt hfind
          simp only [Cell.document.sizeOf_spec] at hc
          exact ih c1 (by omega) f.ty (hdec n f hf) e1 he1
      | _ => simp_all [get_document]

theorem deserializeMember_error (hdec : ∀ n, ∀ f ∈ tbl n, decodable f.ty = true) {T : Ty}
    (hT : decodable T = true) {m : Val} {doc : Doc} {key : String} {e : Err}
    (h : deserializeMember tbl T m doc key = .error e) : e = .typeMismatch := by
  rw [deserializeMember_eq] at h
  cases hfind : find doc key with
  | none => simp [hfind] at h
  | some c =>
    simp only [hfind] at h
    exact get_error_typeMismatch tbl hdec (sizeOf c) c (le_refl _) T hT e h

/-- A `get` that compiles fails with a type mismatch on a cell that is not null
and not of the kind its type expects. -/
theorem get_mismatch (c : Cell) (hnn : c.type ≠ .k_null) :
    ∀ T : Ty, decodable T = true → expectedKind T ≠ some c.type →
      get tbl T (some c) = .error .typeMismatch := by
  intro T
  induction T with
  | bool => intro _ h; cases c <;> simp_all [get_bool, expectedKind, Cell.type]
  | int32 => intro _ h; cases c <;> simp_all [get_int32, expectedKind, Cell.type]
  | int64 => intro _ h; cases c <;> simp_all [get_int64, expectedKind, Cell.type]
  | double => intro _ h; cases c <;> simp_all [get_double, expectedKind, Cell.type]
  | string => intro _ h; cases c <;> simp_all [get_string, expectedKind, Cell.type]
  | timePoint => intro _ h; cases c <;> simp_all [get_date, expectedKind, Cell.type]
  | short => intro _ h; cases c <;> simp_all [get_int32, expectedKind, Cell.type]
  | ushort => intro _ h; cases c <;> simp_all [get_int32, expectedKind, Cell.type]
  | oid => intro _ h; cases c <;> simp_all [get_oid, expectedKind, Cell.type]
  | other a => intro hd; simp [decodable] at hd
  | optional U ihU =>
    intro hd h
    have hdU : decodable U = true := by simpa [decodable] using hd
    rw [get_optional_eq]
    have hnn2 : (c.type != Kind.k_null) = true := by simpa using hnn
    simp only [hdU, if_true, hnn2]
    rw [ihU hdU (by simpa [expectedKind] using h)]
    rfl
  | vector U _ =>
    intro hd h
    have hdU : decodable U = true := by simpa [decodable] using hd
    rw [get_vector_eq]
    cases c <;> simp_all [get_array, expectedKind, Cell.type]
  | cls n =>
    intro _ h
    rw [get_cls_eq]
    cases c <;> simp_all [get_document, expectedKind, Cell.type]

/-! ## Round trip of one member -/

theorem basic_roundtrip {T : Ty} {v : Val} (hT : basicKind T = true) (hv : HasType tbl T v) :
    ∃ c, scalarCell T v = .ok c ∧ get tbl T (some c) = .ok v ∧ c.type ≠ .k_null := by
  cases hv <;> simp [basicKind] at hT
  · exact ⟨_, rfl, by simp [get_bool], by simp [Cell.type]⟩
  · exact ⟨_, rfl, by simp [get_int32], by simp [Cell.type]⟩
  · exact ⟨_, rfl, by simp [get_int64], by simp [Cell.type]⟩
  · exact ⟨_, rfl, by simp [get_double], by simp [Cell.type]⟩
  · exact ⟨_, rfl, by simp [get_string], by simp [Cell.type]⟩
  · exact ⟨_, rfl, by simp [get_oid], by simp [Cell.type]⟩

theorem basicKind_appendable {T : Ty} (hT : basicKind T = true) : appendable T = true := by
  cases T <;> simp_all [basicKind, appendable]

theorem plainKind_decodable {T : Ty} (hT : plainKind T = true) : decodable T = true := by
  cases T with
  | vector E => cases E <;> simp_all [plainKind, basicKind, has_toBSON, decodable]
  | _ => simp_all [plainKind, basicKind, decodable]

theorem plainKind_serializable_optional {T : Ty} (hT : plainKind T = true) :
    serializable (.optional T) = true := by
  cases T with
  | vector E =>
    cases E <;> simp_all [plainKind, basicKind, has_toBSON, serializable, is_primitive_v,
      is_arithmetic_v, appendable]
  | _ => simp_all [plainKind, basicKind, serializable, is_primitive_v, is_arithmetic_v, appendable]

theorem roundTripKind_eq_plainKind {T : Ty} (h : ∀ U, T ≠ .optional U) :
    roundTripKind T = plainKind T := by
  cases T with
  | optional U => exact absurd rfl (h U)
  | _ => rfl

theorem primitives_roundtrip {T : Ty} (hT : basicKind T = true) (elems : List Val)
    (hv : ∀ v ∈ elems, HasType tbl T v) :
    ∃ cells, (∀ arr, appendPrimitives T arr elems = .ok (arr ++ cells)) ∧
      get_elements tbl T cells = .ok elems := by
  induction elems with
  | nil => exact ⟨[], by simp, by simp⟩
  | cons e rest ih =>
    obtain ⟨c, hc, hg, _⟩ := basic_roundtrip tbl hT (hv e (List.mem_cons_self _ _))
    obtain ⟨cells, h1, h2⟩ := ih (fun v hv1 => hv v (List.mem_cons_of_mem _ hv1))
    exact ⟨c :: cells, by intro arr; simp [hc, h1], by simp [hg, h2]⟩

theorem objects_roundtrip (n : String) (elems : List Val)
    (hv : ∀ v ∈ elems, ∃ d, toBSON tbl n v = .ok d ∧ fromBSON tbl n d = .ok v) :
    ∃ cells, (∀ arr, appendObjects tbl (.cls n) arr elems = .ok (arr ++ cells)) ∧
      get_elements tbl (.cls n) cells = .ok elems := by
  induction elems with
  | nil => exact ⟨[], by simp, by simp⟩
  | cons e rest ih =>
    obtain ⟨d, hd, hg⟩ := hv e (List.mem_cons_self _ _)
    obtain ⟨cells, h1, h2⟩ := ih (fun v hv1 => hv v (List.mem_cons_of_mem _ hv1))
    refine ⟨.document d :: cells, by intro arr; simp [hd, h1], ?_⟩
    simp [get_cls_eq, get_document, hg, h2]

theorem valueInit_optional {U : Ty} {v : Val} (h : ValueInit tbl (.optional U) v) :
    v = .opt none := by
  cases h
  rfl

theorem fields_roundtrip (fs : List Field) (ms : List Val)
    (hty : List.Forall₂ (fun f v => HasType tbl f.ty v) fs ms)
    (hinit : ∀ f ∈ fs, f.ty = .optional .oid → f.dflt = .opt none)
    (hnd : (fs.map Field.name).Nodup)
    (ih : ∀ f ∈ fs, ∀ m ∈ ms, HasType tbl f.ty m → ∃ oc, MemberRoundTrip tbl f.ty m oc) :
    ∃ enc, (∀ doc, BSON_TO_BSON_1 tbl fs doc ms = .ok (doc ++ enc)) ∧
      (∀ x ∈ keys enc, x ∈ fs.map Field.name) ∧
      (∀ pre, (∀ x ∈ fs.map Field.name, find pre x = none) →
        BSON_FROM_BSON_1 tbl fs (pre ++ enc) = .ok ms) := by
  induction hty with
  | nil => exact ⟨[], by simp, by simp, by simp⟩
  | @cons f m fs ms hfm _ ih2 =>
    obtain ⟨oc, hser, hget, hnone⟩ :=
      ih f (List.mem_cons_self _ _) m (List.mem_cons_self _ _) hfm
    simp only [List.map_cons, List.nodup_cons] at hnd
    obtain ⟨enc, h1, h2, h3⟩ := ih2 (fun g hg => hinit g (List.mem_cons_of_mem _ hg)) hnd.2
      (fun f1 hf1 m1 hm1 h => ih f1 (List.mem_cons_of_mem _ hf1) m1 (List.mem_cons_of_mem _ hm1) h)
    refine ⟨keyed f.name oc ++ enc, ?_, ?_, ?_⟩
    · intro doc
      simp [hser, h1]
    · intro x hx
      simp only [keys_append, List.mem_append, keys_keyed] at hx
      rcases hx with hx | hx
      · cases oc <;> simp at hx
        simp [hx]
      · exact List.mem_cons_of_mem _ (h2 x hx)
    · intro pre hpre
      have hfind : find (pre ++ (keyed f.name oc ++ enc)) f.name = oc := by
        rw [find_append, hpre f.name (List.mem_cons_self _ _), find_append, find_keyed]
        have : find enc f.name = none := by
          rw [find_eq_none_iff]
          exact fun h => hnd.1 (h2 _ h)
        rw [this]
        cases oc <;> rfl
      have hmem : deserializeMember tbl f.ty f.dflt (pre ++ (keyed f.name oc ++ enc)) f.name =
          .ok m := by
        rw [deserializeMember_eq, hfind]
        cases oc with
        | some c => exact hget c rfl
        | none =>
          obtain ⟨hT, hm⟩ := hnone rfl
          rw [hm, hinit f (List.mem_cons_self _ _) hT]
      have hrest := h3 (pre ++ keyed f.name oc) (by
        intro x hx
        rw [find_append, hpre x (List.mem_cons_of_mem _ hx), find_keyed_ne]
        · rfl
        · intro h
          exact hnd.1 (h ▸ hx))
      rw [List.append_assoc] at hrest
      rw [BSON_FROM_BSON_1_cons, hmem, hrest]
      rfl

theorem roundtrip_aux (hk : RoundTripTable tbl) (hn : DistinctNames tbl)
    (hd : OptionalOidDefaultsAbsent tbl) :
    ∀ (k : Nat) (v : Val) (T : Ty), sizeOf v ≤ k → roundTripKind T = true → HasType tbl T v →
      ∃ oc, MemberRoundTrip tbl T v oc := by
  intro k
  induction k with
  | zero =>
    intro v T hsz
    cases v <;> simp at hsz
  | succ k ih =>
    have plain : ∀ (v : Val) (T : Ty), sizeOf v ≤ k + 1 → plainKind T = true → HasType tbl T v →
        ∃ c, (∀ doc key, serializeMember tbl T doc key v = .ok (doc ++ [(key, c)])) ∧
          get tbl T (some c) = .ok v ∧ c.type ≠ .k_null := by
      intro v T hsz hT hv
      have hcls : ∀ (n : String) (ms : List Val), sizeOf ms ≤ k →
          List.Forall₂ (fun f v => HasType tbl f.ty v) (tbl n) ms →
          ∃ d, toBSON tbl n (.obj ms) = .ok d ∧ fromBSON tbl n d = .ok (.obj ms) := by
        intro n ms hszm hms
        · obtain ⟨enc, h1, _, h3⟩ := fields_roundtrip tbl (tbl n) ms hms (hd n) (hn n) (by
            intro f hf m hm hfm
            have hlt := List.sizeOf_lt_of_mem hm
            exact ih m f.ty (by omega) (hk n f hf) hfm)
          refine ⟨enc, by simpa using h1 [], ?_⟩
          rw [fromBSON_eq]
          have := h3 [] (by simp [find])
          simp only [List.nil_append] at this
          rw [this]
          rfl
      cases hv with
      | vec E elems hel =>
        have hsz2 : sizeOf elems ≤ k := by
          simp only [Val.vec.sizeOf_spec] at hsz
          omega
        have hE : basicKind E = true ∨ ∃ n, E = .cls n := by
          simp only [plainKind, Bool.or_eq_true] at hT
          rcases hT with h | h
          · exact Or.inl h
          · cases E <;> simp [has_toBSON] at h
            exact Or.inr ⟨_, rfl⟩
        rcases hE with hb | ⟨n, rfl⟩
        · obtain ⟨cells, h1, h2⟩ := primitives_roundtrip tbl hb elems hel
          refine ⟨.array cells, ?_, ?_, by simp [Cell.type]⟩
          · intro doc key
            rw [serializeMember_vector_of_primitive tbl (basicKind_appendable hb)]
            simp [serializeMember_vector_primitive, h1, append]
          · rw [get_vector_eq]
            simp [plainKind_decodable (T := E) (by cases E <;> simp_all [plainKind, basicKind]),
              get_array, h2]
        · obtain ⟨cells, h1, h2⟩ := objects_roundtrip tbl n elems (by
            intro e he
            have hlt := List.sizeOf_lt_of_mem he
            have hve := hel e he
            cases hve with
            | obj _ ms hms =>
              simp only [Val.obj.sizeOf_spec] at hlt
              exact hcls n ms (by omega) hms)
          refine ⟨.array cells, ?_, ?_, by simp [Cell.type]⟩
          · intro doc key
            rw [serializeMember_vector_cls]
            simp [h1, append]
          · rw [get_vector_eq]
            simp [decodable, get_array, h2]
      | obj n ms hms =>
        obtain ⟨d, h1, h2⟩ := hcls n ms (by
          simp only [Val.obj.sizeOf_spec] at hsz
          omega) hms
        refine ⟨.document d, ?_, ?_, by simp [Cell.type]⟩
        · intro doc key
          rw [serializeMember_cls, serializeMember_class_eq, h1]
          rfl
        · rw [get_cls_eq]
          simpa [get_document] using h2
      | bool b => exact ⟨.bool b, by simp [serializeMember_primitive, scalarCell, append], by simp [get_bool], by simp [Cell.type]⟩
      | int32 x => exact ⟨.int32 x, by simp [serializeMember_primitive, scalarCell, append], by simp [get_int32], by simp [Cell.type]⟩
      | int64 x => exact ⟨.int64 x, by simp [serializeMember_primitive, scalarCell, append], by simp [get_int64], by simp [Cell.type]⟩
      | double x => exact ⟨.double x, by simp [serializeMember_primitive, scalarCell, append], by simp [get_double], by simp [Cell.type]⟩
      | string x => exact ⟨.utf8 x, by simp [serializeMember_primitive, scalarCell, append], by simp [get_string], by simp [Cell.type]⟩
      | oid x => exact ⟨.oid x, by simp [serializeMember_primitive, scalarCell, append], by simp [get_oid], by simp [Cell.type]⟩
      | timePoint x => simp [plainKind, basicKind] at hT
      | short x => simp [plainKind, basicKind] at hT
      | ushort x => simp [plainKind, basicKind] at hT
      | none U => simp [plainKind, basicKind] at hT
      | some U w hw => simp [plainKind, basicKind] at hT
    intro v T hsz hT hv
    by_cases hopt : ∃ U, T = .optional U
    · obtain ⟨U, rfl⟩ := hopt
      have hU : plainKind U = true := hT
      have hdU := plainKind_decodable hU
      cases hv with
      | none _ =>
        by_cases ho : U = .oid
        · refine ⟨none, ?_, by simp, fun _ => ⟨by rw [ho], rfl⟩⟩
          intro doc key
          rw [serializeMember_none tbl U (plainKind_serializable_optional hU)]
          simp [ho, keyed]
        · refine ⟨some .null, ?_, ?_, by simp⟩
          · intro doc key
            rw [serializeMember_none tbl U (plainKind_serializable_optional hU)]
            simp [ho, keyed]
          · intro c hc
            cases hc
            rw [get_optional_eq]
            simp [hdU, Cell.type]
      | some _ w hw =>
        have hszw : sizeOf w ≤ k + 1 := by
          simp only [Val.opt.sizeOf_spec, Option.some.sizeOf_spec] at hsz
          omega
        obtain ⟨c, h1, h2, h3⟩ := plain w U hszw hU hw
        refine ⟨some c, ?_, ?_, by simp⟩
        · intro doc key
          rw [serializeMember_some, h1]
          rfl
        · intro c1 hc1
          cases hc1
          rw [get_optional_eq]
          have hnn2 : (c.type != Kind.k_null) = true := by simpa using h3
          simp [hdU, hnn2, h2]
    · have hT2 : plainKind T = true := by
        rw [← roundTripKind_eq_plainKind (fun U h => hopt ⟨U, h⟩)]
        exact hT
      obtain ⟨c, h1, h2, _⟩ := plain v T hsz hT2 hv
      refine ⟨some c, ?_, ?_, by simp⟩
      · intro doc key
        rw [h1]
        rfl
      · intro c1 hc1
        cases hc1
        exact h2

/-! ## Failure of one member -/

/-- In a program whose classes compile, `fromBSON` fails with a type mismatch
as soon as `deserializeMember` does for one listed member. -/
theorem fromBSON_member_error (hacc : Accepted tbl) {n : String} {f : Field} (hf : f ∈ tbl n)
    {doc : Doc} (hmem : deserializeMember tbl f.ty f.dflt doc f.name = .error .typeMismatch) :
    fromBSON tbl n doc = .error .typeMismatch := by
  have hdec : ∀ n, ∀ g ∈ tbl n, decodable g.ty = true := fun n g hg => (hacc n g hg).1
  have key : ∀ fs : List Field, (∀ g ∈ fs, decodable g.ty = true) → f ∈ fs →
      BSON_FROM_BSON_1 tbl fs doc = .error .typeMismatch := by
    intro fs
    induction fs with
    | nil => intro _ h; simp at h
    | cons g rest ih =>
      intro hg hin
      rw [BSON_FROM_BSON_1_cons]
      cases hd : deserializeMember tbl g.ty g.dflt doc g.name with
      | error e =>
        have := deserializeMember_error tbl hdec (hg g (List.mem_cons_self _ _)) hd
        rw [this]
        rfl
      | ok v =>
        rw [ok_bind]
        rcases List.mem_cons.mp hin with rfl | hin2
        · rw [hmem] at hd
          cases hd
        · rw [ih (fun g1 hg1 => hg g1 (List.mem_cons_of_mem _ hg1)) hin2]
          rfl
  rw [fromBSON_eq, key (tbl n) (hdec n) hf]
  rfl

/-- The loop of the vector branch fails with a type mismatch as soon as one
element does, when the elements can fail in no other way. -/
theorem get_elements_member_error (U : Ty) (cs : List Cell)
    (herr : ∀ c ∈ cs, ∀ e, get tbl U (some c) = .error e → e = .typeMismatch)
    (hbad : ∃ c ∈ cs, get tbl U (some c) = .error .typeMismatch) :
    get_elements tbl U cs = .error .typeMismatch := by
  induction cs with
  | nil =>
    obtain ⟨c, hc, _⟩ := hbad
    simp at hc
  | cons c rest ih =>
    rw [get_elements_cons]
    cases hd : get tbl U (some c) with
    | error e =>
      rw [herr c (List.mem_cons_self _ _) e hd]
      rfl
    | ok v =>
      rw [ok_bind]
      obtain ⟨c1, hc1, hb⟩ := hbad
      rcases List.mem_cons.mp hc1 with rfl | hin
      · rw [hb] at hd
        cases hd
      · rw [ih (fun c2 hc2 => herr c2 (List.mem_cons_of_mem _ hc2)) ⟨c1, hin, hb⟩]
        rfl

/-- The expansion of `BSON_FROM_BSON_1` returns the members when every
`deserializeMember` returns. -/
theorem BSON_FROM_BSON_1_ok (fs : List Field) (doc : Doc)
    (h : ∀ f ∈ fs, ∃ v, deserializeMember tbl f.ty f.dflt doc f.name = .ok v) :
    ∃ ms, BSON_FROM_BSON_1 tbl fs doc = .ok ms := by
  induction fs with
  | nil => exact ⟨[], by simp⟩
  | cons f rest ih =>
    obtain ⟨v, hv⟩ := h f (List.mem_cons_self _ _)
    obtain ⟨ms, hms⟩ := ih (fun g hg => h g (List.mem_cons_of_mem _ hg))
    exact ⟨v :: ms, by simp [hv, hms]⟩

/-! ## The test classes, one by one -/

theorem testTable_Inner :
    testTable "Inner" = [⟨"x", .int32, .int32 0⟩, ⟨"y", .int32, .int32 0⟩] := rfl

theorem testTable_NestedClass :
    testTable "NestedClass" =
      [⟨"inner", .cls "Inner", .obj [.int32 0, .int32 0]⟩, ⟨"name", .string, .string ""⟩] := rfl

theorem testTable_Example :
    testTable "Example" =
      [⟨"id", .optional .oid, .opt none⟩, ⟨"flag", .bool, .bool false⟩,
       ⟨"count", .int32, .int32 0⟩, ⟨"tags", .vector .string, .vec []⟩] := rfl

/-- The object `Inner{a, b}` is encoded as the document with `x` and `y`. -/
theorem toBSON_Inner (a b : Int) :
    toBSON testTable "Inner" (.obj [.int32 a, .int32 b]) =
      .ok [("x", .int32 a), ("y", .int32 b)] := by
  rw [toBSON_obj, testTable_Inner]
  simp [serializeMember_primitive, scalarCell, append]

/-- The document with int32 cells under `x` and `y` is decoded as `Inner{a, b}`. -/
theorem fromBSON_Inner (a b : Int) :
    fromBSON testTable "Inner" [("x", .int32 a), ("y", .int32 b)] =
      .ok (.obj [.int32 a, .int32 b]) := by
  rw [fromBSON_eq, testTable_Inner]
  simp [deserializeMember_eq, find, get_int32]

/-! ## Round trip of a record -/

theorem defaultsValueInit_optionalOid (h : DefaultsValueInit tbl) :
    OptionalOidDefaultsAbsent tbl := by
  intro n f hf hT
  have hi := h n f hf
  rw [hT] at hi
  exact valueInit_optional tbl hi

/-- C1, as stated, fails: the class `Preset` lists one member, the optional
identifier `id`, to which a default member initializer gives the identifier 5.
The record whose `id` holds no value is encoded as the empty document, the key
of an absent optional identifier being omitted, and the empty document is
decoded as the default instance, whose `id` holds 5. -/
theorem round_trip_counterexample :
    RoundTripTable (presetTable 5) ∧ DistinctNames (presetTable 5) ∧
    HasType (presetTable 5) (.cls "Preset") (.obj [.opt none]) ∧
    toBSON (presetTable 5) "Preset" (.obj [.opt none]) = .ok [] ∧
    fromBSON (presetTable 5) "Preset" [] = .ok (.obj [.opt (some (.oid 5))]) ∧
    Val.obj [.opt (some (.oid 5))] ≠ Val.obj [.opt none] := by
  have ht : presetTable 5 "Preset" = [⟨"id", .optional .oid, .opt (some (.oid 5))⟩] := rfl
  refine ⟨?_, ?_, ?_, ?_, ?_, by simp⟩
  · intro n f hf
    unfold presetTable at hf
    split at hf
    · rw [List.mem_singleton.mp hf]
      rfl
    · simp at hf
  · intro n
    unfold presetTable
    split <;> simp
  · exact HasType.obj "Preset" _ (List.Forall₂.cons (HasType.none .oid) List.Forall₂.nil)
  · rw [toBSON_obj, ht, BSON_TO_BSON_1_cons, serializeMember_none (presetTable 5) .oid rfl]
    simp
  · rw [fromBSON_eq, ht]
    simp [deserializeMember_eq, find]

/-- C1, amended: in a program whose classes list distinct names, only members of
the kinds bool, 32-bit integer, 64-bit integer, double, string, identifier,
sequence of these, nested record, sequence of nested records, or optional of one
of these, and whose default instances hold no value in their optional
identifiers, `toBSON` of a well-typed record returns a document, and `fromBSON`
of that document returns the record: every member is equal to the member it was
encoded from. -/
theorem round_trip (hk : RoundTripTable tbl) (hn : DistinctNames tbl)
    (hd : OptionalOidDefaultsAbsent tbl) (n : String) (r : Val)
    (hr : HasType tbl (.cls n) r) :
    ∃ d, toBSON tbl n r = .ok d ∧ fromBSON tbl n d = .ok r := by
  obtain ⟨oc, h1, h2, h3⟩ := roundtrip_aux tbl hk hn hd (sizeOf r) r (.cls n) (le_refl _) rfl hr
  cases oc with
  | none => exact absurd (h3 rfl).1 (by simp)
  | some c =>
    obtain ⟨d, hd1, hd2⟩ := toBSON_of_serializeMember tbl (h1 [] "")
    refine ⟨d, hd1, ?_⟩
    simp only [keyed, List.nil_append, List.cons.injEq, Prod.mk.injEq, true_and, and_true] at hd2
    have := h2 c rfl
    rw [hd2, get_cls_eq] at this
    simpa [get_document] using this

/-- Witness of C1: the `OptionalClass` object of `OptionalClassTest`. -/
theorem round_trip_witness :
    ∃ d, toBSON testTable "OptionalClass" optionalRecord = .ok d ∧
      fromBSON testTable "OptionalClass" d = .ok optionalRecord :=
  round_trip testTable testTable_roundTrip testTable_distinctNames
    (defaultsValueInit_optionalOid testTable testTable_defaults)
    "OptionalClass" optionalRecord optionalRecord_hasType

/-! ## Scalars -/

/-- C7: for every key and every primitive value, `serializeMember` adds under
the key the cell of the scalar table that holds the value: a bool cell for a
bool, an int32 cell for a 32-bit integer, an int64 cell for a 64-bit integer, a
double cell for a double, a string cell with the same characters for a string,
an identifier cell for an identifier, a date cell with the milliseconds since
the epoch for a timestamp, and an int32 cell with the same integer for a 16-bit
signed or unsigned integer. -/
theorem scalar_codec_on_encode (doc : Doc) (k : String) :
    (∀ b, serializeMember tbl .bool doc k (.bool b) = .ok (doc ++ [(k, .bool b)])) ∧
    (∀ v, serializeMember tbl .int32 doc k (.int32 v) = .ok (doc ++ [(k, .int32 v)])) ∧
    (∀ v, serializeMember tbl .int64 doc k (.int64 v) = .ok (doc ++ [(k, .int64 v)])) ∧
    (∀ v, serializeMember tbl .double doc k (.double v) = .ok (doc ++ [(k, .double v)])) ∧
    (∀ s, serializeMember tbl .string doc k (.string s) = .ok (doc ++ [(k, .utf8 s)])) ∧
    (∀ o, serializeMember tbl .oid doc k (.oid o) = .ok (doc ++ [(k, .oid o)])) ∧
    (∀ ns, serializeMember tbl .timePoint doc k (.timePoint ns) =
      .ok (doc ++ [(k, .date (ns.tdiv 1000000))])) ∧
    (∀ v, serializeMember tbl .short doc k (.short v) = .ok (doc ++ [(k, .int32 v)])) ∧
    (∀ v, serializeMember tbl .ushort doc k (.ushort v) = .ok (doc ++ [(k, .int32 v)])) := by
  refine ⟨?_, ?_, ?_, ?_, ?_, ?_, ?_, ?_, ?_⟩ <;> intro x
  all_goals simp [serializeMember_primitive, serializeMember_time_point, scalarCell, append, b_date]

/-! ## Optional members on encode -/

/-- C2: in a program whose classes compile and list distinct names, `toBSON` of a
well-typed record returns a document in which, for every optional member: if the
member holds no value, a null cell is found under its name, except that for an
optional identifier no pair has that name at all; if the member holds a value,
what is found under its name is exactly what the overload of the value type
writes for that value. -/
theorem optional_absence_on_encode (hacc : Accepted tbl) (hnd : DistinctNames tbl) (n : String)
    (ms : List Val) (hv : HasType tbl (.cls n) (.obj ms)) :
    ∃ d, toBSON tbl n (.obj ms) = .ok d ∧
      ∀ (f : Field) (m : Val), (f, m) ∈ (tbl n).zip ms → ∀ U : Ty, f.ty = .optional U →
        (m = .opt none → U ≠ .oid → find d f.name = some .null) ∧
        (m = .opt none → U = .oid → f.name ∉ keys d) ∧
        (∀ v, m = .opt (some v) →
          serializeMember tbl U [] f.name v = .ok (keyed f.name (find d f.name))) := by
  obtain ⟨d, hd, _, hl⟩ := toBSON_total tbl hacc hv
  refine ⟨d, hd, ?_⟩
  intro f m hmem U hU
  have hlink := hl (hnd n) f m hmem [] f.name
  have hser : serializable (.optional U) = true := by
    rw [← hU]
    exact (hacc n f (List.of_mem_zip hmem).1).2
  rw [hU] at hlink
  refine ⟨?_, ?_, ?_⟩
  · intro hm ho
    rw [hm, serializeMember_none tbl U hser] at hlink
    simp only [ho, if_false, List.nil_append, Except.ok.injEq] at hlink
    exact keyed_eq_singleton hlink.symm
  · intro hm ho
    rw [hm, serializeMember_none tbl U hser] at hlink
    simp only [ho, if_true, List.nil_append, Except.ok.injEq] at hlink
    rw [← find_eq_none_iff]
    exact keyed_eq_nil hlink.symm
  · intro v hm
    rw [hm, serializeMember_some] at hlink
    simpa using hlink

/-- Witness of C2: the record of the end-to-end example, whose optional
identifier holds no value. -/
theorem optional_absence_on_encode_witness :
    ∃ d, toBSON testTable "Example"
        (.obj [.opt none, .bool true, .int32 42, .vec [.string "a", .string "b"]]) = .ok d ∧
      ∀ (f : Field) (m : Val), (f, m) ∈ (testTable "Example").zip
          [.opt none, .bool true, .int32 42, .vec [.string "a", .string "b"]] →
        ∀ U : Ty, f.ty = .optional U →
          (m = .opt none → U ≠ .oid → find d f.name = some .null) ∧
          (m = .opt none → U = .oid → f.name ∉ keys d) ∧
          (∀ v, m = .opt (some v) →
            serializeMember testTable U [] f.name v = .ok (keyed f.name (find d f.name))) :=
  optional_absence_on_encode testTable testTable_accepted testTable_distinctNames "Example"
    [.opt none, .bool true, .int32 42, .vec [.string "a", .string "b"]] exampleRecord_hasType

/-! ## The shape of an encoded document -/

theorem omitsKey_eq_absentOptionalOid (T : Ty) (v : Val)
    (h : ∀ U, T ≠ .optional (.optional U)) : omitsKey T v = absentOptionalOid T v := by
  cases T with
  | optional U =>
    cases v with
    | opt o =>
      cases o with
      | none => cases U <;> simp [omitsKey, absentOptionalOid]
      | some w =>
        cases U with
        | optional U2 => exact absurd rfl (h U2)
        | _ => simp [omitsKey, absentOptionalOid]
    | _ => simp [omitsKey, absentOptionalOid]
  | _ => simp [omitsKey, absentOptionalOid]

theorem writtenKeys_eq_declaredKeys (fs : List Field) (ms : List Val)
    (h : ∀ f ∈ fs, ∀ U, f.ty ≠ .optional (.optional U)) :
    writtenKeys fs ms = declaredKeys fs ms := by
  induction fs generalizing ms with
  | nil => simp [writtenKeys, declaredKeys]
  | cons f fs ih =>
    cases ms with
    | nil => simp [writtenKeys, declaredKeys]
    | cons m ms =>
      simp only [writtenKeys, declaredKeys]
      rw [omitsKey_eq_absentOptionalOid f.ty m (h f (List.mem_cons_self _ _)),
        ih ms (fun f1 hf1 => h f1 (List.mem_cons_of_mem _ hf1))]

/-- C6, as stated, fails: the class `Wrapped` lists one member `id`, an optional
of an optional identifier.  For the record whose `id` holds an absent optional,
`toBSON` returns the empty document, while the declared names without those of
the absent optional identifiers are still `id`. -/
theorem encode_document_shape_counterexample :
    HasType wrappedTable (.cls "Wrapped") (.obj [.opt (some (.opt none))]) ∧
    toBSON wrappedTable "Wrapped" (.obj [.opt (some (.opt none))]) = .ok [] ∧
    declaredKeys (wrappedTable "Wrapped") [.opt (some (.opt none))] = ["id"] ∧
    keys ([] : Doc) ≠ declaredKeys (wrappedTable "Wrapped") [.opt (some (.opt none))] := by
  have ht : wrappedTable "Wrapped" = [⟨"id", .optional (.optional .oid), .opt none⟩] := rfl
  refine ⟨HasType.obj "Wrapped" _
    (List.Forall₂.cons (HasType.some _ _ (HasType.none .oid)) List.Forall₂.nil), ?_, ?_, ?_⟩
  · rw [toBSON_obj, ht, BSON_TO_BSON_1_cons, serializeMember_some,
      serializeMember_none wrappedTable .oid rfl]
    simp
  · rw [ht]
    rfl
  · rw [ht]
    simp [declaredKeys, absentOptionalOid, keys]

/-- C6, amended: in a program whose classes compile and list distinct names,
`toBSON` of a well-typed record returns a document whose keys are the declared
names in declaration order without those of the members whose value is an
absent optional identifier, be the member that optional itself or present
optionals around it; each remaining name occurs once and no other key occurs.
For a class that lists no optional of an optional, these are the declared names
without those of the absent optional identifiers. -/
theorem encode_document_shape (hacc : Accepted tbl) (hnd : DistinctNames tbl) (n : String)
    (ms : List Val) (hv : HasType tbl (.cls n) (.obj ms)) :
    ∃ d, toBSON tbl n (.obj ms) = .ok d ∧
      keys d = writtenKeys (tbl n) ms ∧
      (keys d).Nodup ∧
      (∀ x ∈ keys d, x ∈ (tbl n).map Field.name) ∧
      ((∀ f ∈ tbl n, ∀ U, f.ty ≠ .optional (.optional U)) →
        keys d = declaredKeys (tbl n) ms) := by
  obtain ⟨d, hd, hk, _⟩ := toBSON_total tbl hacc hv
  refine ⟨d, hd, hk, ?_, ?_, ?_⟩
  · rw [hk]
    exact writtenKeys_nodup _ _ (hnd n)
  · rw [hk]
    exact writtenKeys_subset _ _
  · intro h
    rw [hk]
    exact writtenKeys_eq_declaredKeys _ _ h

/-- Witness of C6: the record of the end-to-end example, whose optional
identifier holds no value. -/
theorem encode_document_shape_witness :
    ∃ d, toBSON testTable "Example"
        (.obj [.opt none, .bool true, .int32 42, .vec [.string "a", .string "b"]]) = .ok d ∧
      keys d = ["flag", "count", "tags"] := by
  obtain ⟨d, hd, hk, _⟩ := encode_document_shape testTable testTable_accepted
    testTable_distinctNames "Example"
    [.opt none, .bool true, .int32 42, .vec [.string "a", .string "b"]] exampleRecord_hasType
  exact ⟨d, hd, hk.trans rfl⟩

/-! ## Sequences on encode -/

/-- C8: in a program whose classes compile, for a well-typed sequence whose
element type is a primitive the builder accepts or a class, `serializeMember`
adds under the key an array cell with exactly one element per element of the
sequence, in the same order: the scalar cell of a primitive element, the
document `toBSON` returns for a class element. -/
theorem sequence_encode (hacc : Accepted tbl) (E : Ty) (elems : List Val)
    (hE : appendable E = true ∨ ∃ n, E = .cls n) (hv : HasType tbl (.vector E) (.vec elems))
    (doc : Doc) (key : String) :
    ∃ cells, serializeMember tbl (.vector E) doc key (.vec elems) =
        .ok (doc ++ [(key, .array cells)]) ∧
      cells.length = elems.length ∧
      List.Forall₂ (fun e c =>
        (appendable E = true → scalarCell E e = .ok c) ∧
        (∀ n, E = .cls n → ∃ d, toBSON tbl n e = .ok d ∧ c = .document d)) elems cells := by
  cases hv with
  | vec _ _ hel =>
    rcases hE with ha | ⟨n, rfl⟩
    · obtain ⟨cells, h1, h2⟩ := appendPrimitives_total tbl ha elems hel
      refine ⟨cells, ?_, h1.length_eq.symm, ?_⟩
      · rw [serializeMember_vector_of_primitive tbl ha]
        simp [serializeMember_vector_primitive, h2, append]
      · refine h1.imp ?_
        intro e c hec
        refine ⟨fun _ => hec, ?_⟩
        intro n hn
        subst hn
        simp [appendable] at ha
    · have hall : ∀ v ∈ elems, ∃ d, toBSON tbl n v = .ok d := by
        intro v hmem
        have hv1 := hel v hmem
        cases hv1 with
        | obj _ ms hms =>
          obtain ⟨d, hd, _⟩ := toBSON_total tbl hacc (HasType.obj n ms hms)
          exact ⟨d, hd⟩
      obtain ⟨cells, h1, h2⟩ := appendObjects_total tbl n elems hall
      refine ⟨cells, ?_, h1.length_eq.symm, ?_⟩
      · rw [serializeMember_vector_cls]
        simp [h2, append]
      · refine h1.imp ?_
        intro e c hec
        refine ⟨fun ha => by simp [appendable] at ha, ?_⟩
        intro n1 hn
        cases hn
        exact hec

/-- Witness of C8: the two `Inner` objects of `NestedClassArrayTest`. -/
theorem sequence_encode_witness :
    ∃ cells, serializeMember testTable (.vector (.cls "Inner")) [] "inner"
        (.vec [.obj [.int32 42, .int32 24], .obj [.int32 24, .int32 42]]) =
        .ok ([] ++ [("inner", .array cells)]) ∧
      cells.length = 2 := by
  obtain ⟨cells, h1, h2, _⟩ := sequence_encode testTable testTable_accepted (.cls "Inner")
    [.obj [.int32 42, .int32 24], .obj [.int32 24, .int32 42]] (Or.inr ⟨"Inner", rfl⟩)
    (HasType.vec _ _ (by
      intro v hv
      simp only [List.mem_cons, List.mem_singleton, List.not_mem_nil, or_false] at hv
      rcases hv with rfl | rfl
      · exact inner_hasType 42 24 (by decide) (by decide) (by decide) (by decide)
      · exact inner_hasType 24 42 (by decide) (by decide) (by decide) (by decide)))
    [] "inner"
  exact ⟨cells, h1, h2⟩

/-! ## The empty sequence -/

/-- C10: for a sequence member that holds no element, with a primitive or class
element type, `serializeMember` adds under the key an array cell without
elements, neither a null cell nor nothing; `deserializeMember` at a document in
which that cell is found under the key gives the empty sequence, and so it does
at the builder `serializeMember` returns when the key was not in it before. -/
theorem empty_sequence (E : Ty) (hE : appendable E = true ∨ ∃ n, E = .cls n) (doc : Doc)
    (key : String) :
    serializeMember tbl (.vector E) doc key (.vec []) = .ok (doc ++ [(key, .array [])]) ∧
    (∀ (d : Doc) (m : Val), find d key = some (.array []) →
      deserializeMember tbl (.vector E) m d key = .ok (.vec [])) ∧
    (∀ m : Val, find doc key = none →
      deserializeMember tbl (.vector E) m (doc ++ [(key, .array [])]) key = .ok (.vec [])) := by
  have hdec : decodable E = true := by
    rcases hE with ha | ⟨n, rfl⟩
    · cases E <;> simp_all [appendable, decodable]
    · rfl
  have hget : get tbl (.vector E) (some (.array [])) = .ok (.vec []) := by
    rw [get_vector_eq]
    simp [hdec, get_array]
  refine ⟨?_, ?_, ?_⟩
  · rcases hE with ha | ⟨n, rfl⟩
    · rw [serializeMember_vector_of_primitive tbl ha]
      simp [serializeMember_vector_primitive, append]
    · rw [serializeMember_vector_cls]
      simp [append]
  · intro d m hf
    rw [deserializeMember_eq, hf]
    exact hget
  · intro m hfd
    rw [deserializeMember_eq, find_append, hfd]
    simpa [find] using hget

/-- Witness of C10: the empty `intArray` of
`SerializationWithEmptyPrimitiveArray`. -/
theorem empty_sequence_witness :
    serializeMember testTable (.vector .int32) [] "intArray" (.vec []) =
      .ok ([] ++ [("intArray", .array [])]) ∧
    deserializeMember testTable (.vector .int32) (.vec [.int32 1])
      ([] ++ [("intArray", .array [])]) "intArray" = .ok (.vec []) :=
  ⟨(empty_sequence testTable .int32 (Or.inl rfl) [] "intArray").1,
    (empty_sequence testTable .int32 (Or.inl rfl) [] "intArray").2.2 (.vec [.int32 1]) rfl⟩

/-! ## Type mismatch -/

/-- C3: in a program whose classes compile, if the cell found under the name of
a listed member is not null and not of the kind the declared type of the member
expects (an optional expects what its value type expects), `fromBSON` fails
with a type mismatch and returns no record. -/
theorem type_mismatch (hacc : Accepted tbl) (n : String) (f : Field) (hf : f ∈ tbl n)
    (doc : Doc) (c : Cell) (hfind : find doc f.name = some c) (hnn : c.type ≠ .k_null)
    (hkind : expectedKind f.ty ≠ some c.type) :
    fromBSON tbl n doc = .error .typeMismatch := by
  have hdec : ∀ n, ∀ g ∈ tbl n, decodable g.ty = true := fun n g hg => (hacc n g hg).1
  have hmem : deserializeMember tbl f.ty f.dflt doc f.name = .error .typeMismatch := by
    rw [deserializeMember_eq, hfind]
    exact get_mismatch tbl c hnn f.ty (hdec n f hf) hkind
  have key : ∀ fs : List Field, (∀ g ∈ fs, decodable g.ty = true) → f ∈ fs →
      BSON_FROM_BSON_1 tbl fs doc = .error .typeMismatch := by
    intro fs
    induction fs with
    | nil => intro _ h; simp at h
    | cons g rest ih =>
      intro hg hin
      rw [BSON_FROM_BSON_1_cons]
      cases hd : deserializeMember tbl g.ty g.dflt doc g.name with
      | error e =>
        have := deserializeMember_error tbl hdec (hg g (List.mem_cons_self _ _)) hd
        rw [this]
        rfl
      | ok v =>
        rw [ok_bind]
        rcases List.mem_cons.mp hin with rfl | hin2
        · rw [hmem] at hd
          cases hd
        · rw [ih (fun g1 hg1 => hg g1 (List.mem_cons_of_mem _ hg1)) hin2]
          rfl
  rw [fromBSON_eq, key (tbl n) (hdec n) hf]
  rfl

/-- Witness of C3: an int32 cell under `optionalString` of `OptionalClass`. -/
theorem type_mismatch_witness :
    fromBSON testTable "OptionalClass"
      [("optionalInt", .int32 1), ("optionalString", .int32 2)] = .error .typeMismatch :=
  type_mismatch testTable testTable_accepted "OptionalClass"
    ⟨"optionalString", .optional .string, .opt none⟩
    (by
      have h : testTable "OptionalClass" =
          [⟨"optionalInt", .optional .int32, .opt none⟩,
           ⟨"optionalString", .optional .string, .opt none⟩,
           ⟨"optionalStringArray", .optional (.vector .string), .opt none⟩,
           ⟨"optionalInner", .optional (.cls "Inner"), .opt none⟩] := rfl
      rw [h]
      simp)
    [("optionalInt", .int32 1), ("optionalString", .int32 2)] (.int32 2)
    (by simp [find]) (by simp [Cell.type]) (by simp [expectedKind, Cell.type])

/-! ## Missing keys -/

/-- C4: `deserializeMember` with a key the document does not hold leaves the
member as it is; `fromBSON` of the empty document returns the default instance
of the class; and whenever `fromBSON` returns a record, each member whose name
the document does not hold has the value it has in the default instance. -/
theorem missing_key_tolerance (n : String) (doc : Doc) :
    (∀ (T : Ty) (m : Val) (key : String), find doc key = none →
      deserializeMember tbl T m doc key = .ok m) ∧
    fromBSON tbl n [] = .ok (.obj ((tbl n).map Field.dflt)) ∧
    (∀ ms : List Val, fromBSON tbl n doc = .ok (.obj ms) →
      List.Forall₂ (fun f m => find doc f.name = none → m = f.dflt) (tbl n) ms) := by
  refine ⟨?_, ?_, ?_⟩
  · intro T m key h
    rw [deserializeMember_eq, h]
  · rw [fromBSON_eq]
    have : ∀ fs : List Field, BSON_FROM_BSON_1 tbl fs [] = .ok (fs.map Field.dflt) := by
      intro fs
      induction fs with
      | nil => simp
      | cons f rest ih => simp [deserializeMember_eq, find, ih]
    rw [this]
    rfl
  · intro ms h
    rw [fromBSON_eq] at h
    have key : ∀ (fs : List Field) (ms : List Val), BSON_FROM_BSON_1 tbl fs doc = .ok ms →
        List.Forall₂ (fun f m => find doc f.name = none → m = f.dflt) fs ms := by
      intro fs
      induction fs with
      | nil =>
        intro ms h
        simp at h
        subst h
        exact List.Forall₂.nil
      | cons f rest ih =>
        intro ms h
        rw [BSON_FROM_BSON_1_cons] at h
        cases hd : deserializeMember tbl f.ty f.dflt doc f.name with
        | error e => simp [hd] at h
        | ok v =>
          rw [hd, ok_bind] at h
          cases hr : BSON_FROM_BSON_1 tbl rest doc with
          | error e => simp [hr] at h
          | ok vs =>
            rw [hr, ok_bind, pure_eq_ok] at h
            cases h
            refine List.Forall₂.cons ?_ (ih vs hr)
            intro hnone
            rw [deserializeMember_eq, hnone] at hd
            cases hd
            rfl
    cases hb : BSON_FROM_BSON_1 tbl (tbl n) doc with
    | error e => simp [hb] at h
    | ok vs =>
      rw [hb, map_ok] at h
      cases h
      exact key (tbl n) ms hb

/-- Witness of C4: `OptionalClass` decoded from a document that holds only
`optionalInt`. -/
theorem missing_key_tolerance_witness :
    deserializeMember testTable (.optional .string) (.opt none) [("optionalInt", .int32 1)]
      "optionalString" = .ok (.opt none) ∧
    fromBSON testTable "OptionalClass" [] =
      .ok (.obj ((testTable "OptionalClass").map Field.dflt)) :=
  ⟨(missing_key_tolerance testTable "OptionalClass" [("optionalInt", .int32 1)]).1
      (.optional .string) (.opt none) "optionalString" (by simp [find]),
    (missing_key_tolerance testTable "OptionalClass" [("optionalInt", .int32 1)]).2.1⟩

/-! ## Optional members on decode -/

/-- C9: for a sequence member whose element type `get` accepts and an array cell
each element of which `get` decodes at the element type, `get` at the sequence
type returns a sequence with exactly one element per cell, the decoded cell at
the same position. -/
theorem sequence_decode (T : Ty) (hT : decodable T = true) (cs : List Cell)
    (hcs : ∀ c ∈ cs, ∃ v, get tbl T (some c) = .ok v) :
    ∃ vs, get tbl (.vector T) (some (.array cs)) = .ok (.vec vs) ∧
      vs.length = cs.length ∧
      List.Forall₂ (fun c v => get tbl T (some c) = .ok v) cs vs := by
  have key : ∃ vs, get_elements tbl T cs = .ok vs ∧
      List.Forall₂ (fun c v => get tbl T (some c) = .ok v) cs vs := by
    induction cs with
    | nil => exact ⟨[], by simp, List.Forall₂.nil⟩
    | cons c rest ih =>
      obtain ⟨v, hv⟩ := hcs c (List.mem_cons_self _ _)
      obtain ⟨vs, h1, h2⟩ := ih (fun c1 hc1 => hcs c1 (List.mem_cons_of_mem _ hc1))
      exact ⟨v :: vs, by simp [hv, h1], List.Forall₂.cons hv h2⟩
  obtain ⟨vs, h1, h2⟩ := key
  refine ⟨vs, ?_, h2.length_eq.symm, h2⟩
  rw [get_vector_eq]
  simp [hT, get_array, h1]

/-- Witness of C9: the array of `intArray` in `DeserializeMembers`. -/
theorem sequence_decode_witness :
    ∃ vs, get testTable (.vector .int32) (some (.array [.int32 1, .int32 2, .int32 3])) =
        .ok (.vec vs) ∧ vs.length = 3 := by
  obtain ⟨vs, h1, h2, _⟩ := sequence_decode testTable .int32 rfl [.int32 1, .int32 2, .int32 3]
    (by
      intro c hc
      simp only [List.mem_cons, List.mem_singleton, List.not_mem_nil, or_false] at hc
      rcases hc with rfl | rfl | rfl <;> simp [get_int32])
  exact ⟨vs, h1, h2⟩

/-! ## Nested records -/

/-- C11: in a program whose classes compile and list distinct names, `toBSON` of
a well-typed record returns a document in which, under the name of every member
of a class type `S`, the document cell of `S::toBSON` of that member is found;
`deserializeMember` at a class type `S` with a document cell under the key
gives `S::fromBSON` of that document; and the `NestedClass` object with
`inner{x = 42, y = 24}` is encoded with the document of `x` 42 and `y` 24 under
`inner`, from which it is decoded again. -/
theorem nested_record_codec (hacc : Accepted tbl) (hnd : DistinctNames tbl) (n : String)
    (ms : List Val) (hv : HasType tbl (.cls n) (.obj ms)) :
    (∃ d, toBSON tbl n (.obj ms) = .ok d ∧
      ∀ (f : Field) (m : Val), (f, m) ∈ (tbl n).zip ms → ∀ S : String, f.ty = .cls S →
        ∃ d1, toBSON tbl S m = .ok d1 ∧ find d f.name = some (.document d1)) ∧
    (∀ (S : String) (m0 : Val) (doc d1 : Doc) (key : String),
      find doc key = some (.document d1) →
        deserializeMember tbl (.cls S) m0 doc key = fromBSON tbl S d1) ∧
    toBSON testTable "NestedClass" (.obj [.obj [.int32 42, .int32 24], .string "NestedClass"]) =
      .ok [("inner", .document [("x", .int32 42), ("y", .int32 24)]),
        ("name", .utf8 "NestedClass")] ∧
    fromBSON testTable "NestedClass"
        [("inner", .document [("x", .int32 42), ("y", .int32 24)]),
          ("name", .utf8 "NestedClass")] =
      .ok (.obj [.obj [.int32 42, .int32 24], .string "NestedClass"]) := by
  refine ⟨?_, ?_, ?_, ?_⟩
  · obtain ⟨d, hd, _, hl⟩ := toBSON_total tbl hacc hv
    refine ⟨d, hd, ?_⟩
    intro f m hmem S hS
    have hlink := hl (hnd n) f m hmem [] f.name
    rw [hS] at hlink
    obtain ⟨d1, h1, h2⟩ := toBSON_of_serializeMember tbl hlink
    refine ⟨d1, h1, ?_⟩
    simp only [List.nil_append] at h2
    exact keyed_eq_singleton h2
  · intro S m0 doc d1 key hfind
    rw [deserializeMember_eq, hfind]
    simp only []
    rw [get_cls_eq]
    rfl
  · rw [toBSON_obj, testTable_NestedClass]
    simp [-toBSON_obj, serializeMember_class_eq, toBSON_Inner, serializeMember_primitive,
      scalarCell, append]
  · rw [fromBSON_eq, testTable_NestedClass]
    simp [deserializeMember_eq, find, get_cls_eq, get_document, fromBSON_Inner, get_string]

/-- Witness of C11: the `NestedClass` object of `NestedClassTest`. -/
theorem nested_record_codec_witness :
    ∃ d, toBSON testTable "NestedClass"
        (.obj [.obj [.int32 42, .int32 24], .string "NestedClass"]) = .ok d ∧
      find d "inner" = some (.document [("x", .int32 42), ("y", .int32 24)]) := by
  have hv : HasType testTable (.cls "NestedClass")
      (.obj [.obj [.int32 42, .int32 24], .string "NestedClass"]) :=
    HasType.obj "NestedClass" _
      (List.Forall₂.cons (inner_hasType 42 24 (by decide) (by decide) (by decide) (by decide))
        (List.Forall₂.cons (HasType.string _) List.Forall₂.nil))
  obtain ⟨⟨d, hd, hl⟩, _⟩ := nested_record_codec testTable testTable_accepted
    testTable_distinctNames "NestedClass" _ hv
  obtain ⟨d1, h1, h2⟩ := hl ⟨"inner", .cls "Inner", .obj [.int32 0, .int32 0]⟩
    (.obj [.int32 42, .int32 24]) (by rw [testTable_NestedClass]; simp) "Inner" rfl
  rw [toBSON_Inner] at h1
  cases h1
  exact ⟨d, hd, h2⟩

/-! ## The end-to-end example -/

/-- C12: for the class `Example` with the members `id` (optional identifier),
`flag` (bool), `count` (int32) and `tags` (sequence of string), `toBSON` of the
record with no `id`, `flag` true, `count` 42 and `tags` a, b is exactly the
document of `flag` true, `count` 42 and `tags` the array of a and b, in which
no cell is found under `id`; and `fromBSON` of that document is that record. -/
theorem end_to_end_example :
    toBSON testTable "Example" exampleRecord =
      .ok [("flag", .bool true), ("count", .int32 42),
        ("tags", .array [.utf8 "a", .utf8 "b"])] ∧
    find [("flag", .bool true), ("count", .int32 42),
        ("tags", .array [.utf8 "a", .utf8 "b"])] "id" = none ∧
    fromBSON testTable "Example"
        [("flag", .bool true), ("count", .int32 42),
          ("tags", .array [.utf8 "a", .utf8 "b"])] = .ok exampleRecord := by
  refine ⟨?_, ?_, ?_⟩
  · rw [exampleRecord, toBSON_obj, testTable_Example]
    simp [serializeMember_none testTable .oid rfl, serializeMember_primitive, scalarCell, append,
      serializeMember_vector_of_primitive testTable (E := .string) rfl,
      serializeMember_vector_primitive]
  · simp [find]
  · rw [exampleRecord, fromBSON_eq, testTable_Example]
    simp [deserializeMember_eq, find, get_bool, get_int32, get_vector_eq, decodable, get_array,
      get_string]

/-! ## The first mismatch aborts the decode -/

/-- C13: in a program whose classes compile, `fromBSON` fails with a type
mismatch, and returns no record, whenever `get` fails so on the cell found under
the name of one listed member; such a failure comes up unchanged from the
document of a nested record, from any element of an array, and from the cell of
a present optional; and `fromBSON` returns a record when `get` returns on the
cell found for every listed member whose name the document holds. -/
theorem abort_on_first_mismatch (hacc : Accepted tbl) (n : String) (doc : Doc) :
    (∀ f ∈ tbl n, ∀ c, find doc f.name = some c →
      get tbl f.ty (some c) = .error .typeMismatch →
        fromBSON tbl n doc = .error .typeMismatch) ∧
    (∀ (S : String) (d1 : Doc) (e : Err), fromBSON tbl S d1 = .error e →
      get tbl (.cls S) (some (.document d1)) = .error e) ∧
    (∀ (U : Ty) (cs : List Cell), decodable U = true →
      (∃ c ∈ cs, get tbl U (some c) = .error .typeMismatch) →
        get tbl (.vector U) (some (.array cs)) = .error .typeMismatch) ∧
    (∀ (U : Ty) (c : Cell) (e : Err), decodable U = true → c.type ≠ .k_null →
      get tbl U (some c) = .error e → get tbl (.optional U) (some c) = .error e) ∧
    ((∀ f ∈ tbl n, ∀ c, find doc f.name = some c → ∃ v, get tbl f.ty (some c) = .ok v) →
      ∃ ms, fromBSON tbl n doc = .ok (.obj ms)) := by
  have hdec : ∀ n, ∀ g ∈ tbl n, decodable g.ty = true := fun n g hg => (hacc n g hg).1
  refine ⟨?_, ?_, ?_, ?_, ?_⟩
  · intro f hf c hfind hget
    refine fromBSON_member_error tbl hacc hf ?_
    rw [deserializeMember_eq, hfind]
    exact hget
  · intro S d1 e h
    rw [get_cls_eq]
    simpa [get_document] using h
  · intro U cs hU hbad
    rw [get_vector_eq]
    simp only [hU, if_true, get_array]
    rw [get_elements_member_error tbl U cs
      (fun c _ e he => get_error_typeMismatch tbl hdec (sizeOf c) c (le_refl _) U hU e he) hbad]
    rfl
  · intro U c e hU hnn h
    rw [get_optional_eq]
    have hnn2 : (c.type != Kind.k_null) = true := by simpa using hnn
    simp only [hU, if_true, hnn2]
    rw [h]
    rfl
  · intro h
    obtain ⟨ms, hms⟩ := BSON_FROM_BSON_1_ok tbl (tbl n) doc (by
      intro f hf
      rw [deserializeMember_eq]
      cases hfind : find doc f.name with
      | none => exact ⟨f.dflt, rfl⟩
      | some c => exact h f hf c hfind)
    exact ⟨ms, by rw [fromBSON_eq, hms]; rfl⟩

/-- Witness of C13: a string cell under `x` inside the document of `inner`. -/
theorem abort_on_first_mismatch_witness :
    fromBSON testTable "NestedClass"
      [("inner", .document [("x", .utf8 "a"), ("y", .int32 24)]), ("name", .utf8 "N")] =
      .error .typeMismatch := by
  have hx : fromBSON testTable "Inner" [("x", .utf8 "a"), ("y", .int32 24)] =
      .error .typeMismatch := by
    rw [fromBSON_eq, testTable_Inner]
    simp [deserializeMember_eq, find, get_int32]
  have h := abort_on_first_mismatch testTable testTable_accepted "NestedClass"
    [("inner", .document [("x", .utf8 "a"), ("y", .int32 24)]), ("name", .utf8 "N")]
  exact h.1 ⟨"inner", .cls "Inner", .obj [.int32 0, .int32 0]⟩
    (by rw [testTable_NestedClass]; simp)
    (.document [("x", .utf8 "a"), ("y", .int32 24)]) (by simp [find])
    (h.2.1 "Inner" _ _ hx)

/-! ## Timestamps -/

theorem toInt64_of_range {x : Int} (lo : -9223372036854775808 ≤ x)
    (hi : x ≤ 9223372036854775807) : toInt64 x = x := by
  unfold toInt64
  norm_num
  omega

theorem tdiv_million_bounds (ns : Int) :
    (0 ≤ ns → 0 ≤ ns.tdiv 1000000 * 1000000 ∧ ns.tdiv 1000000 * 1000000 ≤ ns) ∧
    (ns ≤ 0 → ns ≤ ns.tdiv 1000000 * 1000000 ∧ ns.tdiv 1000000 * 1000000 ≤ 0) := by
  constructor
  · intro h
    rw [Int.tdiv_eq_ediv h (by decide)]
    omega
  · intro h
    have h2 : ns = -(-ns) := by omega
    rw [h2, Int.neg_tdiv, Int.tdiv_eq_ediv (by omega) (by decide)]
    omega

/-- C14, as stated, fails: the time point one nanosecond after the epoch is
encoded as the date cell of 0 milliseconds, which is decoded as the epoch. -/
theorem timestamp_round_trip_counterexample :
    HasType testTable .timePoint (.timePoint 1) ∧
    serializeMember testTable .timePoint [] "t" (.timePoint 1) = .ok [("t", .date 0)] ∧
    get testTable .timePoint (some (.date 0)) = .ok (.timePoint 0) ∧
    Val.timePoint 0 ≠ Val.timePoint 1 := by
  refine ⟨HasType.timePoint 1 (by decide) (by decide), ?_, ?_, by simp⟩
  · have h : Int.tdiv 1 1000000 = 0 := by decide
    simp [serializeMember_time_point, append, b_date, h]
  · simp [get_date, time_point_of_date, toInt64]

/-- C14, amended: a time point of `ns` nanoseconds since the epoch is encoded as
the date cell of `ns` divided by a million, rounded toward zero, and that cell
is decoded as that many milliseconds: the time point rounded toward zero to a
whole millisecond.  It is the time point itself exactly when `ns` is a multiple
of a million. -/
theorem timestamp_round_trip (ns : Int) (hv : HasType tbl .timePoint (.timePoint ns))
    (doc : Doc) (key : String) :
    serializeMember tbl .timePoint doc key (.timePoint ns) =
      .ok (doc ++ [(key, .date (ns.tdiv 1000000))]) ∧
    get tbl .timePoint (some (.date (ns.tdiv 1000000))) =
      .ok (.timePoint (ns.tdiv 1000000 * 1000000)) ∧
    (ns.tdiv 1000000 * 1000000 = ns ↔ (1000000 : Int) ∣ ns) := by
  cases hv with
  | timePoint _ lo hi =>
    have hb := tdiv_million_bounds ns
    refine ⟨?_, ?_, ?_⟩
    · simp [serializeMember_time_point, append, b_date]
    · have hr : toInt64 (ns.tdiv 1000000 * 1000000) = ns.tdiv 1000000 * 1000000 := by
        apply toInt64_of_range <;> omega
      simp [get_date, time_point_of_date, hr]
    · constructor
      · intro h
        exact ⟨ns.tdiv 1000000, by omega⟩
      · intro h
        exact Int.tdiv_mul_cancel h

/-- Witness of C14: one and a half milliseconds after the epoch is decoded as
one millisecond after the epoch. -/
theorem timestamp_round_trip_witness :
    get testTable .timePoint (some (.date ((1500000 : Int).tdiv 1000000))) =
      .ok (.timePoint ((1500000 : Int).tdiv 1000000 * 1000000)) :=
  (timestamp_round_trip testTable 1500000 (HasType.timePoint _ (by decide) (by decide))
    [] "t").2.1

/-! ## The narrowing of 16-bit integers -/

/-- C15: for every value `v` of an int32 cell, `get` at `unsigned short` returns
`v` modulo 65536, and `get` at `short` returns the one value from -32768 to 32767
that is congruent to `v` modulo 65536; neither fails, so a value out of the
range of the member is truncated and not rejected. -/
theorem narrowing_on_decode (v : Int) :
    get tbl .ushort (some (.int32 v)) = .ok (.ushort (v % 65536)) ∧
    ∃ w, get tbl .short (some (.int32 v)) = .ok (.short w) ∧
      -32768 ≤ w ∧ w < 32768 ∧ (w - v) % 65536 = 0 ∧
      ∀ w1 : Int, -32768 ≤ w1 → w1 < 32768 → (w1 - v) % 65536 = 0 → w1 = w := by
  refine ⟨by simp [get_int32, toUInt16], toInt16 (toUInt16 v), by simp [get_int32], ?_, ?_, ?_, ?_⟩
  all_goals
    unfold toInt16 toUInt16
    omega

/-! ## Decoding twice -/

/-- C17, evaluated: `get` accepts a sequence of sequences of int32, a sequence of
optional int32 and a sequence of timestamps, and decodes the array of the array
of 1; the call of `serializeMember` for each of the three types does not
compile, the overload for a vector of non-primitives needing `T::toBSON` of the
element type. -/
theorem recursive_classification_gap :
    decodable (.vector (.vector .int32)) = true ∧
    decodable (.vector (.optional .int32)) = true ∧
    decodable (.vector .timePoint) = true ∧
    serializable (.vector (.vector .int32)) = false ∧
    serializable (.vector (.optional .int32)) = false ∧
    serializable (.vector .timePoint) = false ∧
    get testTable (.vector (.vector .int32)) (some (.array [.array [.int32 1]])) =
      .ok (.vec [.vec [.int32 1]]) ∧
    serializeMember testTable (.vector (.vector .int32)) [] "m" (.vec [.vec [.int32 1]]) =
      .error .unsupportedType := by
  refine ⟨rfl, rfl, rfl, rfl, rfl, rfl, ?_, ?_⟩
  · simp [get_vector_eq, decodable, get_array, get_int32]
  · exact serializeMember_unserializable testTable (by rfl) _ _ _

/-! ## Optional sequences -/

/-- C18: for an optional sequence whose sequence type serializes, the identifier
as element type included: an absent value is serialized as a null cell under the
key, never as nothing, and a present value is serialized as the sequence it
holds is, to the same array cell. -/
theorem optional_of_sequence (E : Ty) (hE : serializable (.vector E) = true) (doc : Doc)
    (key : String) :
    serializeMember tbl (.optional (.vector E)) doc key (.opt none) =
      .ok (doc ++ [(key, .null)]) ∧
    (∀ v : Val, serializeMember tbl (.optional (.vector E)) doc key (.opt (some v)) =
      serializeMember tbl (.vector E) doc key v) ∧
    (∀ v : Val, omitsKey (.optional (.vector E)) v = false) := by
  refine ⟨?_, fun v => serializeMember_some tbl _ doc key v, ?_⟩
  · rw [serializeMember_none tbl (.vector E) (by
      rw [serializable_optional_vector, ← serializable_vector]
      exact hE)]
    simp
  · intro v
    cases v with
    | opt o => cases o <;> simp [omitsKey, is_std_vector_v]
    | _ => simp [omitsKey]

/-- Witness of C18: an absent optional sequence of identifiers. -/
theorem optional_of_sequence_witness :
    serializeMember testTable (.optional (.vector .oid)) [] "ids" (.opt none) =
      .ok ([] ++ [("ids", .null)]) :=
  (optional_of_sequence testTable .oid rfl [] "ids").1

/-! ## Null under a member that is not optional -/

theorem get_null {T : Ty} (hT : decodable T = true) (hno : is_optional_v T = false) :
    get tbl T (some .null) = .error .typeMismatch := by
  cases T with
  | optional U => simp [is_optional_v] at hno
  | other a => simp [decodable] at hT
  | vector U =>
    rw [get_vector_eq]
    have hU : decodable U = true := by simpa [decodable] using hT
    simp [hU, get_array]
  | cls n =>
    rw [get_cls_eq]
    simp [get_document]
  | _ => simp [get_bool, get_int32, get_int64, get_double, get_string, get_date, get_oid]

/-- C19: in a program whose classes compile, if a null cell is found under the
name of a listed member whose type is not an optional, be it a scalar, a
sequence or a nested record, `fromBSON` fails with a type mismatch: it returns
no record, and so none with the member at its default. -/
theorem null_into_non_optional (hacc : Accepted tbl) (n : String) (f : Field) (hf : f ∈ tbl n)
    (hno : is_optional_v f.ty = false) (doc : Doc) (hfind : find doc f.name = some .null) :
    fromBSON tbl n doc = .error .typeMismatch := by
  refine fromBSON_member_error tbl hacc hf ?_
  rw [deserializeMember_eq, hfind]
  exact get_null tbl (hacc n f hf).1 hno

/-- Witness of C19: a null cell under `name` of `NestedClass`. -/
theorem null_into_non_optional_witness :
    fromBSON testTable "NestedClass" [("name", .null)] = .error .typeMismatch :=
  null_into_non_optional testTable testTable_accepted "NestedClass"
    ⟨"name", .string, .string ""⟩ (by rw [testTable_NestedClass]; simp) rfl
    [("name", .null)] (by simp [find])

/-! ## Types outside the classifications -/

theorem decodable_eq_not_unclassified (T : Ty) : decodable T = !unclassified T := by
  induction T with
  | optional U ih => simpa [decodable, unclassified] using ih
  | vector U ih => simpa [decodable, unclassified] using ih
  | _ => simp [decodable, unclassified]

/-- C20: a type that is, or wraps, a type outside the four classifications is
rejected by `get` whatever the element, a type outside them is rejected by
`serializeMember` whatever the value, and no program compiles in which a class
lists a member of such a type; in a program whose classes compile, `fromBSON`
never fails with an unsupported type and `toBSON` returns a document for every
well-typed record. -/
theorem unsupported_types_rejected (n : String) :
    (∀ T : Ty, unclassified T = true →
      (∀ e, get tbl T e = .error .unsupportedType) ∧
      (∀ f ∈ tbl n, f.ty = T → ¬ Accepted tbl)) ∧
    (∀ (a : Bool) (doc : Doc) (key : String) (v : Val),
      serializeMember tbl (.other a) doc key v = .error .unsupportedType) ∧
    (Accepted tbl →
      (∀ doc, fromBSON tbl n doc ≠ .error .unsupportedType) ∧
      (∀ r, HasType tbl (.cls n) r → ∃ d, toBSON tbl n r = .ok d)) := by
  refine ⟨?_, ?_, ?_⟩
  · intro T hT
    have hd : decodable T = false := by
      rw [decodable_eq_not_unclassified, hT]
      rfl
    refine ⟨fun e => get_undecodable tbl hd e, ?_⟩
    intro f hf hty hacc
    have := (hacc n f hf).1
    rw [hty, hd] at this
    cases this
  · intro a doc key v
    exact serializeMember_unserializable tbl (by cases a <;> rfl) doc key v
  · intro hacc
    have hdec : ∀ n, ∀ g ∈ tbl n, decodable g.ty = true := fun n g hg => (hacc n g hg).1
    refine ⟨?_, ?_⟩
    · intro doc h
      have := get_error_typeMismatch tbl hdec _ (.document doc) (le_refl _) (.cls n) rfl
        .unsupportedType (by
          rw [get_cls_eq]
          simpa [get_document] using h)
      cases this
    · intro r hr
      cases hr with
      | obj _ ms hms =>
        obtain ⟨d, hd, _⟩ := toBSON_total tbl hacc (HasType.obj n ms hms)
        exact ⟨d, hd⟩

/-- Witness of C20: the test classes compile, so decoding `Inner` does not fail
with an unsupported type. -/
theorem unsupported_types_rejected_witness :
    (∀ doc, fromBSON testTable "Inner" doc ≠ .error .unsupportedType) ∧
    ∃ d, toBSON testTable "Inner" (.obj [.int32 42, .int32 24]) = .ok d :=
  ⟨((unsupported_types_rejected testTable "Inner").2.2 testTable_accepted).1,
    ((unsupported_types_rejected testTable "Inner").2.2 testTable_accepted).2 _
      (inner_hasType 42 24 (by decide) (by decide) (by decide) (by decide))⟩

/-! ## Termination -/

theorem treeTable_Tree :
    treeTable "Tree" = [⟨"value", .int32, .int32 0⟩,
      ⟨"children", .vector (.cls "Tree"), .vec []⟩,
      ⟨"more", .optional (.vector (.cls "Tree")), .opt none⟩] := rfl

theorem treeTable_accepted : Accepted treeTable :=
  tableOf_forall (by decide)

theorem chain_hasType (k : Nat) : HasType treeTable (.cls "Tree") (chain k) := by
  induction k with
  | zero =>
    exact HasType.obj "Tree" _
      (List.Forall₂.cons (HasType.int32 0 (by decide) (by decide))
        (List.Forall₂.cons (HasType.vec _ [] (by simp))
          (List.Forall₂.cons (HasType.none _) List.Forall₂.nil)))
  | succ k ih =>
    have hv : HasType treeTable (.vector (.cls "Tree")) (.vec [chain k]) :=
      HasType.vec _ _ (by
        intro v hv
        rw [List.mem_singleton.mp hv]
        exact ih)
    exact HasType.obj "Tree" _
      (List.Forall₂.cons (HasType.int32 0 (by decide) (by decide))
        (List.Forall₂.cons hv
          (List.Forall₂.cons (HasType.some _ _ hv) List.Forall₂.nil)))

/-- C21: `toBSON` and `fromBSON` are total functions, defined by well-founded
recursion on the size of the value and of the document, for every class table,
one with classes that hold vectors of themselves included.  In a program whose
classes compile, `toBSON` returns a document for every well-typed record and
`fromBSON` returns a record or the type-mismatch exception for every document;
the recursive calls are those of the source (`fromBSON` for a document cell,
`toBSON` for a class member) and each is made on a strictly smaller argument:
a cell found in the document, the pairs of a document cell, an element of an
array, a member of an object, an element of a vector, the value of an
optional. -/
theorem termination_at_arbitrary_depth (hacc : Accepted tbl) (n : String) :
    (∀ r, HasType tbl (.cls n) r → ∃ d, toBSON tbl n r = .ok d) ∧
    (∀ doc, (∃ r, fromBSON tbl n doc = .ok r) ∨ fromBSON tbl n doc = .error .typeMismatch) ∧
    (∀ (doc : Doc) (key : String) (c : Cell), find doc key = some c → sizeOf c < sizeOf doc) ∧
    (∀ d : Doc, get tbl (.cls n) (some (.document d)) = fromBSON tbl n d ∧
      sizeOf d < sizeOf (Cell.document d)) ∧
    (∀ (cs : List Cell) (c : Cell), c ∈ cs → sizeOf c < sizeOf (Cell.array cs)) ∧
    (∀ (doc : Doc) (key : String) (r : Val),
      serializeMember tbl (.cls n) doc key r =
        (toBSON tbl n r >>= fun d => pure (append doc key (.document d)))) ∧
    (∀ (ms : List Val) (m : Val), m ∈ ms → sizeOf m < sizeOf (Val.obj ms)) ∧
    (∀ (es : List Val) (e : Val), e ∈ es → sizeOf e < sizeOf (Val.vec es)) ∧
    (∀ v : Val, sizeOf v < sizeOf (Val.opt (some v))) := by
  have hdec : ∀ n, ∀ g ∈ tbl n, decodable g.ty = true := fun n g hg => (hacc n g hg).1
  refine ⟨?_, ?_, ?_, ?_, ?_, ?_, ?_, ?_, ?_⟩
  · intro r hr
    cases hr with
    | obj _ ms hms =>
      obtain ⟨d, hd, _⟩ := toBSON_total tbl hacc (HasType.obj n ms hms)
      exact ⟨d, hd⟩
  · intro doc
    cases h : fromBSON tbl n doc with
    | ok r => exact Or.inl ⟨r, rfl⟩
    | error e =>
      right
      have := get_error_typeMismatch tbl hdec _ (.document doc) (le_refl _) (.cls n) rfl e (by
        rw [get_cls_eq]
        simpa [get_document] using h)
      rw [this]
  · intro doc key c h
    exact find_sizeOf_lt h
  · intro d
    refine ⟨?_, ?_⟩
    · rw [get_cls_eq]
      simp [get_document]
    · simp only [Cell.document.sizeOf_spec]
      omega
  · intro cs c hc
    have := List.sizeOf_lt_of_mem hc
    simp only [Cell.array.sizeOf_spec]
    omega
  · intro doc key r
    rw [serializeMember_cls, serializeMember_class_eq]
  · intro ms m hm
    have := List.sizeOf_lt_of_mem hm
    simp only [Val.obj.sizeOf_spec]
    omega
  · intro es e he
    have := List.sizeOf_lt_of_mem he
    simp only [Val.vec.sizeOf_spec]
    omega
  · intro v
    simp only [Val.opt.sizeOf_spec, Option.some.sizeOf_spec]
    omega

/-- Witness of C21: the recursive class `Tree`, at every depth. -/
theorem termination_at_arbitrary_depth_witness :
    Accepted treeTable ∧
    (∀ k : Nat, ∃ d, toBSON treeTable "Tree" (chain k) = .ok d) ∧
    (∀ doc : Doc, (∃ r, fromBSON treeTable "Tree" doc = .ok r) ∨
      fromBSON treeTable "Tree" doc = .error .typeMismatch) :=
  ⟨treeTable_accepted,
    fun k => (termination_at_arbitrary_depth treeTable treeTable_accepted "Tree").1 _
      (chain_hasType k),
    (termination_at_arbitrary_depth treeTable treeTable_accepted "Tree").2.1⟩

/-! ## Round trip of 16-bit integers -/

/-- C22: a `short` within [-32768, 32767] and an `unsigned short` within
[0, 65535] are serialized as the int32 cell of the same value, and `get` at the
same 16-bit type, and `deserializeMember` on the builder the call returned,
give the value back, whatever the narrowing cast. -/
theorem sixteen_bit_round_trip (v : Int) (doc : Doc) (key : String) (m : Val)
    (hkey : find doc key = none) :
    (-32768 ≤ v → v ≤ 32767 →
      serializeMember tbl .short doc key (.short v) = .ok (doc ++ [(key, .int32 v)]) ∧
      get tbl .short (some (.int32 v)) = .ok (.short v) ∧
      deserializeMember tbl .short m (doc ++ [(key, .int32 v)]) key = .ok (.short v)) ∧
    (0 ≤ v → v ≤ 65535 →
      serializeMember tbl .ushort doc key (.ushort v) = .ok (doc ++ [(key, .int32 v)]) ∧
      get tbl .ushort (some (.int32 v)) = .ok (.ushort v) ∧
      deserializeMember tbl .ushort m (doc ++ [(key, .int32 v)]) key = .ok (.ushort v)) := by
  have hfind : find (doc ++ [(key, Cell.int32 v)]) key = some (.int32 v) := by
    rw [find_append, hkey]
    simp [find]
  refine ⟨?_, ?_⟩
  · intro lo hi
    have h16 : toInt16 (toUInt16 v) = v := by
      unfold toInt16 toUInt16
      omega
    have hg : get tbl .short (some (.int32 v)) = .ok (.short v) := by
      simp [get_int32, h16]
    refine ⟨by simp [serializeMember_primitive, scalarCell, append], hg, ?_⟩
    rw [deserializeMember_eq, hfind]
    exact hg
  · intro lo hi
    have h16 : toUInt16 v = v := by
      unfold toUInt16
      omega
    have hg : get tbl .ushort (some (.int32 v)) = .ok (.ushort v) := by
      simp [get_int32, h16]
    refine ⟨by simp [serializeMember_primitive, scalarCell, append], hg, ?_⟩
    rw [deserializeMember_eq, hfind]
    exact hg

/-- Witness of C22: the smallest `short` and the largest `unsigned short`. -/
theorem sixteen_bit_round_trip_witness :
    get testTable .short (some (.int32 (-32768))) = .ok (.short (-32768)) ∧
    get testTable .ushort (some (.int32 65535)) = .ok (.ushort 65535) :=
  ⟨((sixteen_bit_round_trip testTable (-32768) [] "s" (.short 0) rfl).1
      (by decide) (by decide)).2.1,
    ((sixteen_bit_round_trip testTable 65535 [] "u" (.ushort 0) rfl).2
      (by decide) (by decide)).2.1⟩

/-! ## Decoding looks at the listed names only -/

theorem BSON_FROM_BSON_1_congr (fs : List Field) (d1 d2 : Doc)
    (h : ∀ f ∈ fs, find d1 f.name = find d2 f.name) :
    BSON_FROM_BSON_1 tbl fs d1 = BSON_FROM_BSON_1 tbl fs d2 := by
  induction fs with
  | nil => simp
  | cons f rest ih =>
    rw [BSON_FROM_BSON_1_cons, BSON_FROM_BSON_1_cons, deserializeMember_eq, deserializeMember_eq,
      h f (List.mem_cons_self _ _), ih (fun g hg => h g (List.mem_cons_of_mem _ hg))]

theorem find_restrict (names : List String) (doc : Doc) (key : String) (hk : key ∈ names) :
    find (restrict names doc) key = find doc key := by
  induction doc with
  | nil => rfl
  | cons p rest ih =>
    obtain ⟨k, c⟩ := p
    by_cases hin : k ∈ names
    · have : restrict names ((k, c) :: rest) = (k, c) :: restrict names rest := by
        simp [restrict, hin]
      rw [this]
      simp only [find]
      rw [ih]
    · have : restrict names ((k, c) :: rest) = restrict names rest := by
        simp [restrict, hin]
      rw [this, ih]
      have hne : k ≠ key := fun h => hin (h ▸ hk)
      simp [find, hne]

theorem find_perm {d1 d2 : Doc} (hp : d1.Perm d2) (hnd : (keys d1).Nodup) (key : String) :
    find d1 key = find d2 key := by
  induction hp with
  | nil => rfl
  | cons p _ ih =>
    obtain ⟨k, c⟩ := p
    simp only [keys, List.map_cons, List.nodup_cons] at hnd
    simp only [find]
    rw [ih hnd.2]
  | swap p q l =>
    obtain ⟨k1, c1⟩ := p
    obtain ⟨k2, c2⟩ := q
    simp only [keys, List.map_cons, List.nodup_cons, List.mem_cons, not_or] at hnd
    simp only [find]
    by_cases h1 : k1 = key
    · by_cases h2 : k2 = key
      · exact absurd (h2.trans h1.symm) hnd.1.1
      · simp [h1, h2]
    · by_cases h2 : k2 = key
      · simp [h1, h2]
      · simp [h1, h2]
  | trans hp1 _ ih1 ih2 =>
    rw [ih1 hnd]
    apply ih2
    have : (keys _).Perm (keys _) := hp1.map Prod.fst
    exact this.nodup_iff.mp hnd

/-- C23: two documents in which `find` gives the same answer for the name of
every listed member are decoded alike by `fromBSON`, to the same record or the
same exception.  So the pairs whose key is no listed name can be dropped from a
document, or added to it, anywhere, and the pairs of a document with distinct
keys can be permuted. -/
theorem decode_depends_on_declared_keys (n : String) (d1 d2 : Doc) :
    ((∀ f ∈ tbl n, find d1 f.name = find d2 f.name) →
      fromBSON tbl n d1 = fromBSON tbl n d2) ∧
    fromBSON tbl n (restrict ((tbl n).map Field.name) d1) = fromBSON tbl n d1 ∧
    (restrict ((tbl n).map Field.name) d1 = restrict ((tbl n).map Field.name) d2 →
      fromBSON tbl n d1 = fromBSON tbl n d2) ∧
    (d1.Perm d2 → (keys d1).Nodup → fromBSON tbl n d1 = fromBSON tbl n d2) := by
  have main : ∀ a b : Doc, (∀ f ∈ tbl n, find a f.name = find b f.name) →
      fromBSON tbl n a = fromBSON tbl n b := by
    intro a b h
    rw [fromBSON_eq, fromBSON_eq, BSON_FROM_BSON_1_congr tbl (tbl n) a b h]
  have hres : ∀ a : Doc, fromBSON tbl n (restrict ((tbl n).map Field.name) a) =
      fromBSON tbl n a := by
    intro a
    apply main
    intro f hf
    exact find_restrict _ a f.name (List.mem_map_of_mem _ hf)
  refine ⟨main d1 d2, hres d1, ?_, ?_⟩
  · intro h
    rw [← hres d1, h, hres d2]
  · intro hp hnd
    exact main d1 d2 (fun f _ => find_perm hp hnd f.name)

/-- Witness of C23: the document of `Inner` with its pairs swapped and a pair
`z` in front. -/
theorem decode_depends_on_declared_keys_witness :
    fromBSON testTable "Inner" [("x", .int32 1), ("y", .int32 2)] =
      fromBSON testTable "Inner" [("z", .utf8 "more"), ("y", .int32 2), ("x", .int32 1)] :=
  (decode_depends_on_declared_keys testTable "Inner" [("x", .int32 1), ("y", .int32 2)]
    [("z", .utf8 "more"), ("y", .int32 2), ("x", .int32 1)]).1 (by
      rw [testTable_Inner]
      intro f hf
      simp only [List.mem_cons, List.mem_singleton, List.not_mem_nil, or_false] at hf
      rcases hf with rfl | rfl <;> simp [find])

/-! ## Decode-then-encode of an encoded document -/

theorem b_date_time_point_of_date (ns : Int) (lo : -9223372036854775808 ≤ ns)
    (hi : ns ≤ 9223372036854775807) :
    b_date (time_point_of_date (b_date ns)) = b_date ns := by
  unfold time_point_of_date b_date
  have hb := tdiv_million_bounds ns
  have hr : toInt64 (ns.tdiv 1000000 * 1000000) = ns.tdiv 1000000 * 1000000 := by
    apply toInt64_of_range
    · rcases le_total 0 ns with h | h
      · have := hb.1 h
        omega
      · have := hb.2 h
        omega
    · rcases le_total 0 ns with h | h
      · have := hb.1 h
        omega
      · have := hb.2 h
        omega
  rw [hr]
  exact Int.mul_tdiv_cancel _ (by decide)

theorem appendable_fixed {T : Ty} {v : Val} (ha : appendable T = true) (hv : HasType tbl T v) :
    ∃ c, (∀ doc key, serializeMember tbl T doc key v = .ok (doc ++ [(key, c)])) ∧
      scalarCell T v = .ok c ∧ get tbl T (some c) = .ok v ∧ c.type ≠ .k_null := by
  have key : ∃ c, scalarCell T v = .ok c ∧ get tbl T (some c) = .ok v ∧ c.type ≠ .k_null := by
    cases hv with
    | bool b => exact ⟨_, rfl, by simp [get_bool], by simp [Cell.type]⟩
    | int32 x => exact ⟨_, rfl, by simp [get_int32], by simp [Cell.type]⟩
    | int64 x => exact ⟨_, rfl, by simp [get_int64], by simp [Cell.type]⟩
    | double x => exact ⟨_, rfl, by simp [get_double], by simp [Cell.type]⟩
    | string x => exact ⟨_, rfl, by simp [get_string], by simp [Cell.type]⟩
    | oid x => exact ⟨_, rfl, by simp [get_oid], by simp [Cell.type]⟩
    | short x lo hi =>
      have h16 : toInt16 (toUInt16 x) = x := by
        unfold toInt16 toUInt16
        omega
      exact ⟨_, rfl, by simp [get_int32, h16], by simp [Cell.type]⟩
    | ushort x lo hi =>
      have h16 : toUInt16 x = x := by
        unfold toUInt16
        omega
      exact ⟨_, rfl, by simp [get_int32, h16], by simp [Cell.type]⟩
    | timePoint x => simp [appendable] at ha
    | none U => simp [appendable] at ha
    | some U w hw => simp [appendable] at ha
    | vec E elems hel => simp [appendable] at ha
    | obj n ms hms => simp [appendable] at ha
  obtain ⟨c, h1, h2, h3⟩ := key
  refine ⟨c, ?_, h1, h2, h3⟩
  intro doc key
  rw [serializeMember_appendable tbl T ha]
  simp [serializeMember_primitive, h1, append]

theorem primitives_fixed {T : Ty} (hT : appendable T = true) (elems : List Val)
    (hv : ∀ v ∈ elems, HasType tbl T v) :
    ∃ cells, (∀ arr, appendPrimitives T arr elems = .ok (arr ++ cells)) ∧
      get_elements tbl T cells = .ok elems := by
  induction elems with
  | nil => exact ⟨[], by simp, by simp⟩
  | cons e rest ih =>
    obtain ⟨c, _, hc, hg, _⟩ := appendable_fixed tbl hT (hv e (List.mem_cons_self _ _))
    obtain ⟨cells, h1, h2⟩ := ih (fun v hv1 => hv v (List.mem_cons_of_mem _ hv1))
    exact ⟨c :: cells, by intro arr; simp [hc, h1], by simp [hg, h2]⟩

theorem objects_fixed (n : String) (elems : List Val)
    (hv : ∀ v ∈ elems, ∃ d, toBSON tbl n v = .ok d ∧
      ∃ w, fromBSON tbl n d = .ok w ∧ toBSON tbl n w = .ok d) :
    ∃ cells, (∀ arr, appendObjects tbl (.cls n) arr elems = .ok (arr ++ cells)) ∧
      ∃ ws, get_elements tbl (.cls n) cells = .ok ws ∧
        ∀ arr, appendObjects tbl (.cls n) arr ws = .ok (arr ++ cells) := by
  induction elems with
  | nil => exact ⟨[], by simp, [], by simp, by simp⟩
  | cons e rest ih =>
    obtain ⟨d, hd, w, hg, hw⟩ := hv e (List.mem_cons_self _ _)
    obtain ⟨cells, h1, ws, h2, h3⟩ := ih (fun v hv1 => hv v (List.mem_cons_of_mem _ hv1))
    refine ⟨.document d :: cells, by intro arr; simp [hd, h1], w :: ws, ?_, ?_⟩
    · simp [get_cls_eq, get_document, hg, h2]
    · intro arr
      simp [hw, h3]

theorem omitsKey_optional {T : Ty} {v : Val} (h : omitsKey T v = true) :
    is_optional_v T = true ∧ wrapsOid T = true := by
  induction T generalizing v with
  | optional U ih =>
    refine ⟨rfl, ?_⟩
    cases v with
    | opt o =>
      cases o with
      | none =>
        have : U = .oid := by simpa [omitsKey] using h
        rw [this]
        rfl
      | some w =>
        have hw : omitsKey U w = true := by
          simp only [omitsKey, Bool.and_eq_true] at h
          exact h.2
        exact (ih hw).2
    | _ => simp [omitsKey] at h
  | _ => simp [omitsKey] at h

theorem omitsKey_of_not_nested {T : Ty} {v : Val} (hn : nestedOptionalOid T = false)
    (h : omitsKey T v = true) : T = .optional .oid ∧ v = .opt none := by
  cases T with
  | optional U =>
    cases v with
    | opt o =>
      cases o with
      | none =>
        have : U = .oid := by simpa [omitsKey] using h
        exact ⟨by rw [this], rfl⟩
      | some w =>
        have hw : omitsKey U w = true := by
          simp only [omitsKey, Bool.and_eq_true] at h
          exact h.2
        obtain ⟨h1, h2⟩ := omitsKey_optional hw
        cases U with
        | optional U2 =>
          have : wrapsOid U2 = true := h2
          simp [nestedOptionalOid, this] at hn
        | _ => simp [is_optional_v] at h1
    | _ => simp [omitsKey] at h
  | _ => simp [omitsKey] at h

theorem serializable_of_optional {U : Ty} (hs : serializable (.optional U) = true) :
    serializable U = true := by
  cases hp : is_primitive_v U with
  | true =>
    rw [serializable_optional_primitive hp] at hs
    exact appendable_serializable hs
  | false =>
    cases hvec : is_std_vector_v U with
    | true =>
      obtain ⟨E, rfl⟩ := is_std_vector_v_eq_true hvec
      rw [serializable_optional_vector] at hs
      rw [serializable_vector]
      exact hs
    | false =>
      rw [serializable_optional_other hp hvec] at hs
      exact hs

theorem cls_fixed {n : String} {v : Val} {oc : Option Cell}
    (h : MemberFixed tbl (.cls n) v oc) :
    ∃ d, oc = some (.document d) ∧ toBSON tbl n v = .ok d ∧
      ∃ w, fromBSON tbl n d = .ok w ∧ toBSON tbl n w = .ok d := by
  obtain ⟨h1, h2, h3⟩ := h
  obtain ⟨d, hd, heq⟩ := toBSON_of_serializeMember tbl (h1 [] "")
  cases oc with
  | none => simp [keyed] at heq
  | some c =>
    have hc : c = .document d := by simpa [keyed] using heq
    subst hc
    obtain ⟨w, hw1, hw2⟩ := h2 _ rfl
    refine ⟨d, rfl, hd, w, ?_, ?_⟩
    · rw [get_cls_eq] at hw1
      simpa [get_document] using hw1
    · obtain ⟨d2, hd2, heq2⟩ := toBSON_of_serializeMember tbl (hw2 [] "")
      have : d = d2 := by simpa using heq2
      rw [this]
      exact hd2

theorem fields_fixed (fs : List Field) (ms : List Val)
    (hty : List.Forall₂ (fun f v => HasType tbl f.ty v) fs ms)
    (hnd : (fs.map Field.name).Nodup)
    (ih : ∀ f ∈ fs, ∀ m ∈ ms, HasType tbl f.ty m →
      ∃ oc, MemberFixed tbl f.ty m oc ∧ (oc = none → f.dflt = m)) :
    ∃ enc, (∀ doc, BSON_TO_BSON_1 tbl fs doc ms = .ok (doc ++ enc)) ∧
      (∀ x ∈ keys enc, x ∈ fs.map Field.name) ∧
      (∀ pre, (∀ x ∈ fs.map Field.name, find pre x = none) →
        ∃ ws, BSON_FROM_BSON_1 tbl fs (pre ++ enc) = .ok ws ∧
          ∀ doc, BSON_TO_BSON_1 tbl fs doc ws = .ok (doc ++ enc)) := by
  induction hty with
  | nil => exact ⟨[], by simp, by simp, fun pre _ => ⟨[], by simp, by simp⟩⟩
  | @cons f m fs ms hfm _ ih2 =>
    obtain ⟨oc, ⟨hser, hst, _⟩, hdflt⟩ :=
      ih f (List.mem_cons_self _ _) m (List.mem_cons_self _ _) hfm
    simp only [List.map_cons, List.nodup_cons] at hnd
    obtain ⟨enc, h1, h2, h3⟩ := ih2 hnd.2
      (fun f1 hf1 m1 hm1 h => ih f1 (List.mem_cons_of_mem _ hf1) m1 (List.mem_cons_of_mem _ hm1) h)
    refine ⟨keyed f.name oc ++ enc, ?_, ?_, ?_⟩
    · intro doc
      simp [hser, h1]
    · intro x hx
      simp only [keys_append, List.mem_append, keys_keyed] at hx
      rcases hx with hx | hx
      · cases oc <;> simp at hx
        simp [hx]
      · exact List.mem_cons_of_mem _ (h2 x hx)
    · intro pre hpre
      have hfind : find (pre ++ (keyed f.name oc ++ enc)) f.name = oc := by
        rw [find_append, hpre f.name (List.mem_cons_self _ _), find_append, find_keyed]
        have : find enc f.name = none := by
          rw [find_eq_none_iff]
          exact fun h => hnd.1 (h2 _ h)
        rw [this]
        cases oc <;> rfl
      have hmem : ∃ w, deserializeMember tbl f.ty f.dflt (pre ++ (keyed f.name oc ++ enc))
          f.name = .ok w ∧
          ∀ doc key, serializeMember tbl f.ty doc key w = .ok (doc ++ keyed key oc) := by
        rw [deserializeMember_eq, hfind]
        cases oc with
        | some c =>
          obtain ⟨w, hw1, hw2⟩ := hst c rfl
          exact ⟨w, hw1, hw2⟩
        | none =>
          refine ⟨f.dflt, rfl, ?_⟩
          rw [hdflt rfl]
          exact hser
      obtain ⟨w, hw1, hw2⟩ := hmem
      obtain ⟨ws, hws1, hws2⟩ := h3 (pre ++ keyed f.name oc) (by
        intro x hx
        rw [find_append, hpre x (List.mem_cons_of_mem _ hx), find_keyed_ne]
        · rfl
        · intro h
          exact hnd.1 (h ▸ hx))
      rw [List.append_assoc] at hws1
      refine ⟨w :: ws, ?_, ?_⟩
      · rw [BSON_FROM_BSON_1_cons, hw1, hws1]
        rfl
      · intro doc
        simp [hw2, hws2]

theorem stable_optional {U : Ty} {c : Cell} (hs : serializable (.optional U) = true)
    (hd : decodable U = true) (h : Stable tbl U c) : Stable tbl (.optional U) c := by
  obtain ⟨w, hw1, hw2⟩ := h
  by_cases hnull : c = .null
  · subst hnull
    have hno : U ≠ .oid := by
      intro h
      rw [h] at hw1
      simp [get_oid] at hw1
    refine ⟨.opt none, ?_, ?_⟩
    · rw [get_optional_eq]
      simp [hd, Cell.type]
    · intro doc key
      rw [serializeMember_none tbl U hs]
      simp [hno]
  · have hnn : (c.type != Kind.k_null) = true := by
      cases c <;> simp [Cell.type] at hnull ⊢
    refine ⟨.opt (some w), ?_, ?_⟩
    · rw [get_optional_eq]
      simp [hd, hnn, hw1]
    · intro doc key
      rw [serializeMember_some]
      exact hw2 doc key

theorem stable_null {U : Ty} (hs : serializable (.optional U) = true)
    (hd : decodable U = true) (hno : U ≠ .oid) : Stable tbl (.optional U) .null := by
  refine ⟨.opt none, ?_, ?_⟩
  · rw [get_optional_eq]
    simp [hd, Cell.type]
  · intro doc key
    rw [serializeMember_none tbl U hs]
    simp [hno]

theorem fixed_aux (hacc : Accepted tbl) (hn : DistinctNames tbl) (hd : DefaultsValueInit tbl)
    (hno : NoNestedOptionalOid tbl) :
    ∀ (k : Nat) (v : Val) (T : Ty), sizeOf v ≤ k → serializable T = true →
      decodable T = true → HasType tbl T v → ∃ oc, MemberFixed tbl T v oc := by
  intro k
  induction k with
  | zero =>
    intro v T hsz
    cases v <;> simp at hsz
  | succ k ih =>
    intro v T hsz hs hdec hv
    have hcls : ∀ (n : String) (ms : List Val), sizeOf ms ≤ k →
        List.Forall₂ (fun f v => HasType tbl f.ty v) (tbl n) ms →
        ∃ d, toBSON tbl n (.obj ms) = .ok d ∧
          ∃ w, fromBSON tbl n d = .ok w ∧ toBSON tbl n w = .ok d := by
      intro n ms hszm hms
      obtain ⟨enc, h1, _, h3⟩ := fields_fixed tbl (tbl n) ms hms (hn n) (by
        intro f hf m hm hfm
        have hlt := List.sizeOf_lt_of_mem hm
        obtain ⟨oc, hoc⟩ := ih m f.ty (by omega) (hacc n f hf).2 (hacc n f hf).1 hfm
        refine ⟨oc, hoc, ?_⟩
        intro hnone
        obtain ⟨hT, hm2⟩ := omitsKey_of_not_nested (hno n f hf) (hoc.2.2 hnone)
        have hi := hd n f hf
        rw [hT] at hi
        rw [hm2, valueInit_optional tbl hi])
      obtain ⟨ws, hws1, hws2⟩ := h3 [] (by simp [find])
      simp only [List.nil_append] at hws1
      refine ⟨enc, by simpa using h1 [], .obj ws, ?_, by simpa using hws2 []⟩
      rw [fromBSON_eq, hws1]
      rfl
    by_cases ha : appendable T = true
    · obtain ⟨c, h1, _, h2, _⟩ := appendable_fixed tbl ha hv
      exact ⟨some c, h1, fun c1 hc1 => by cases hc1; exact ⟨v, h2, h1⟩, by simp⟩
    cases hv with
    | bool b => simp [appendable] at ha
    | int32 x => simp [appendable] at ha
    | int64 x => simp [appendable] at ha
    | double x => simp [appendable] at ha
    | string x => simp [appendable] at ha
    | short x => simp [appendable] at ha
    | ushort x => simp [appendable] at ha
    | oid x => simp [appendable] at ha
    | timePoint ns lo hi =>
      refine ⟨some (.date (b_date ns)), ?_, ?_, by simp⟩
      · intro doc key
        simp [serializeMember_time_point, append, keyed]
      · intro c hc
        cases hc
        refine ⟨.timePoint (time_point_of_date (b_date ns)), by simp [get_date], ?_⟩
        intro doc key
        simp [serializeMember_time_point, append, b_date_time_point_of_date ns lo hi]
    | none U =>
      have hdU : decodable U = true := by simpa [decodable] using hdec
      by_cases ho : U = .oid
      · refine ⟨none, ?_, by simp, fun _ => by simp [omitsKey, ho]⟩
        intro doc key
        rw [serializeMember_none tbl U hs]
        simp [ho, keyed]
      · refine ⟨some .null, ?_, ?_, by simp⟩
        · intro doc key
          rw [serializeMember_none tbl U hs]
          simp [ho, keyed]
        · intro c hc
          cases hc
          exact stable_null tbl hs hdU ho
    | some U w hw =>
      have hdU : decodable U = true := by simpa [decodable] using hdec
      have hszw : sizeOf w ≤ k := by
        simp only [Val.opt.sizeOf_spec, Option.some.sizeOf_spec] at hsz
        omega
      obtain ⟨oc, h1, h2, h3⟩ := ih w U hszw (serializable_of_optional hs) hdU hw
      refine ⟨oc, ?_, ?_, ?_⟩
      · intro doc key
        rw [serializeMember_some]
        exact h1 doc key
      · intro c hc
        exact stable_optional tbl hs hdU (h2 c hc)
      · intro hnone
        have hom := h3 hnone
        obtain ⟨hopt, _⟩ := omitsKey_optional hom
        cases U with
        | optional U2 => simp [omitsKey, is_primitive_v, is_arithmetic_v, is_std_vector_v, hom]
        | _ => simp [is_optional_v] at hopt
    | vec E elems hel =>
      have hdE : decodable E = true := by simpa [decodable] using hdec
      have hsz2 : sizeOf elems ≤ k := by
        simp only [Val.vec.sizeOf_spec] at hsz
        omega
      rw [serializable_vector] at hs
      rcases element_cases hs with hb | ⟨n, rfl⟩
      · obtain ⟨cells, h1, h2⟩ := primitives_fixed tbl hb elems hel
        have hser : ∀ doc key, serializeMember tbl (.vector E) doc key (.vec elems) =
            .ok (doc ++ [(key, .array cells)]) := by
          intro doc key
          rw [serializeMember_vector_of_primitive tbl hb]
          simp [serializeMember_vector_primitive, h1, append]
        refine ⟨some (.array cells), hser, ?_, by simp⟩
        intro c hc
        cases hc
        refine ⟨.vec elems, ?_, hser⟩
        rw [get_vector_eq]
        simp [hdE, get_array, h2]
      · obtain ⟨cells, h1, ws, h2, h3⟩ := objects_fixed tbl n elems (by
          intro e he
          have hlt := List.sizeOf_lt_of_mem he
          have hve := hel e he
          cases hve with
          | obj _ ms hms =>
            simp only [Val.obj.sizeOf_spec] at hlt
            exact hcls n ms (by omega) hms)
        refine ⟨some (.array cells), ?_, ?_, by simp⟩
        · intro doc key
          rw [serializeMember_vector_cls]
          simp [h1, append, keyed]
        · intro c hc
          cases hc
          refine ⟨.vec ws, ?_, ?_⟩
          · rw [get_vector_eq]
            simp [decodable, get_array, h2]
          · intro doc key
            rw [serializeMember_vector_cls]
            simp [h3, append]
    | obj n ms hms =>
      obtain ⟨d, h1, w, h2, h3⟩ := hcls n ms (by
        simp only [Val.obj.sizeOf_spec] at hsz
        omega) hms
      refine ⟨some (.document d), ?_, ?_, by simp⟩
      · intro doc key
        rw [serializeMember_cls, serializeMember_class_eq, h1]
        rfl
      · intro c hc
        cases hc
        refine ⟨w, ?_, ?_⟩
        · rw [get_cls_eq]
          simpa [get_document] using h2
        · intro doc key
          rw [serializeMember_cls, serializeMember_class_eq, h3]
          rfl

theorem stampTable_Stamp :
    stampTable "Stamp" = [⟨"at", .timePoint, .timePoint 0⟩,
      ⟨"level", .optional (.optional .int32), .opt none⟩, ⟨"port", .ushort, .ushort 0⟩] := rfl

theorem stampTable_accepted : Accepted stampTable :=
  tableOf_forall (by decide)

theorem stampTable_distinctNames : DistinctNames stampTable :=
  tableOf_forall_class (P := fun fs => (fs.map Field.name).Nodup) (by decide) (by decide)

theorem stampTable_defaults : DefaultsValueInit stampTable := by
  refine tableOf_forall ?_
  intro c hc f hf
  simp only [List.mem_cons, List.mem_singleton, List.not_mem_nil, or_false] at hc
  subst hc
  simp only [List.mem_cons, List.mem_singleton, List.not_mem_nil, or_false] at hf
  rcases hf with rfl | rfl | rfl <;> constructor

theorem stampTable_noNested : NoNestedOptionalOid stampTable :=
  tableOf_forall (by decide)

/-- C24, as stated, fails: the class `Wrapped` lists one member `id`, an optional
of an optional identifier.  The record whose `id` holds an absent optional is
encoded as the empty document, the empty document is decoded as the record
whose `id` is absent, and that record is encoded as a null cell under `id`. -/
theorem encode_fixed_point_counterexample :
    HasType wrappedTable (.cls "Wrapped") (.obj [.opt (some (.opt none))]) ∧
    toBSON wrappedTable "Wrapped" (.obj [.opt (some (.opt none))]) = .ok [] ∧
    fromBSON wrappedTable "Wrapped" [] = .ok (.obj [.opt none]) ∧
    toBSON wrappedTable "Wrapped" (.obj [.opt none]) = .ok [("id", .null)] ∧
    ([("id", .null)] : Doc) ≠ [] := by
  have ht : wrappedTable "Wrapped" = [⟨"id", .optional (.optional .oid), .opt none⟩] := rfl
  refine ⟨HasType.obj "Wrapped" _
    (List.Forall₂.cons (HasType.some _ _ (HasType.none .oid)) List.Forall₂.nil), ?_, ?_, ?_,
    by simp⟩
  · rw [toBSON_obj, ht, BSON_TO_BSON_1_cons, serializeMember_some,
      serializeMember_none wrappedTable .oid rfl]
    simp
  · rw [fromBSON_eq, ht]
    simp [deserializeMember_eq, find]
  · rw [toBSON_obj, ht, BSON_TO_BSON_1_cons,
      serializeMember_none wrappedTable (.optional .oid) rfl]
    simp

/-- C24, amended: in a program whose classes compile, list distinct names, have
value-initialised default instances and list no optional of an optional (and so
on) of an identifier, `toBSON` of a well-typed record returns a document,
`fromBSON` of that document returns a record, and `toBSON` of that record
returns the same document again, also where the decoded record differs from the
encoded one (a time point with a part of a millisecond, a present optional that
holds an absent one). -/
theorem encode_fixed_point (hacc : Accepted tbl) (hn : DistinctNames tbl)
    (hd : DefaultsValueInit tbl) (hno : NoNestedOptionalOid tbl) (n : String) (r : Val)
    (hr : HasType tbl (.cls n) r) :
    ∃ d w, toBSON tbl n r = .ok d ∧ fromBSON tbl n d = .ok w ∧ toBSON tbl n w = .ok d := by
  obtain ⟨oc, hoc⟩ := fixed_aux tbl hacc hn hd hno (sizeOf r) r (.cls n) (le_refl _) rfl rfl hr
  obtain ⟨d, _, h1, w, h2, h3⟩ := cls_fixed tbl hoc
  exact ⟨d, w, h1, h2, h3⟩

/-- Witness of C24: a `Stamp` with a time point of one and a half milliseconds
and a present optional that holds an absent one, which the decoder does not
give back. -/
theorem encode_fixed_point_witness :
    ∃ d w, toBSON stampTable "Stamp"
        (.obj [.timePoint 1500000, .opt (some (.opt none)), .ushort 8080]) = .ok d ∧
      fromBSON stampTable "Stamp" d = .ok w ∧ toBSON stampTable "Stamp" w = .ok d :=
  encode_fixed_point stampTable stampTable_accepted stampTable_distinctNames
    stampTable_defaults stampTable_noNested "Stamp"
    (.obj [.timePoint 1500000, .opt (some (.opt none)), .ushort 8080])
    (HasType.obj "Stamp" _
      (List.Forall₂.cons (HasType.timePoint 1500000 (by decide) (by decide))
        (List.Forall₂.cons (HasType.some _ _ (HasType.none .int32))
          (List.Forall₂.cons (HasType.ushort 8080 (by decide) (by decide))
            List.Forall₂.nil))))

/-! ## The builder after `serializeMember` -/

theorem find_append_of_some (p q : Doc) (key : String) (c : Cell) (h : find p key = some c) :
    find (p ++ q) key = some c := by
  rw [find_append, h]
  rfl

/-- C25, as stated, fails: for a present optional that holds an absent optional
identifier, which is not itself an absent optional identifier, the builder after
`serializeMember` is the builder before it: no pair is added. -/
theorem serialize_only_appends_counterexample :
    HasType testTable (.optional (.optional .oid)) (.opt (some (.opt none))) ∧
    serializable (.optional (.optional .oid)) = true ∧
    absentOptionalOid (.optional (.optional .oid)) (.opt (some (.opt none))) = false ∧
    serializeMember testTable (.optional (.optional .oid)) [("a", .int32 1)] "id"
      (.opt (some (.opt none))) = .ok [("a", .int32 1)] ∧
    ¬ ∃ c : Cell, ([("a", .int32 1)] : Doc) = [("a", .int32 1)] ++ [("id", c)] := by
  refine ⟨HasType.some _ _ (HasType.none .oid), rfl, rfl, ?_, ?_⟩
  · rw [serializeMember_some, serializeMember_none testTable .oid rfl]
    simp
  · simp

/-- C25, amended: for a well-typed value of a type that serializes, in a program
whose classes compile, the builder after `serializeMember(doc, k, v)` is the
builder before it followed by exactly one pair with key `k`, or exactly the
builder before it when `v` is an absent optional identifier, be it `v` itself or
what the present optionals of `v` hold; for a type that is no optional of an
optional that is when `v` is an absent optional identifier.  The pairs before
the call are the first pairs of the builder after it, and a cell found under any key
before the call is the cell found under it after the call. -/
theorem serialize_only_appends (hacc : Accepted tbl) (T : Ty) (v : Val)
    (hs : serializable T = true) (hv : HasType tbl T v) (p : Doc) (k : String) :
    ∃ oc : Option Cell,
      serializeMember tbl T p k v = .ok (p ++ keyed k oc) ∧
      (omitsKey T v = true → oc = none ∧ p ++ keyed k oc = p) ∧
      (omitsKey T v = false → ∃ c, oc = some c ∧ p ++ keyed k oc = p ++ [(k, c)]) ∧
      ((∀ U, T ≠ .optional (.optional U)) → omitsKey T v = absentOptionalOid T v) ∧
      (p ++ keyed k oc).take p.length = p ∧
      (∀ key c, find p key = some c → find (p ++ keyed k oc) key = some c) := by
  obtain ⟨oc, hoc, hser⟩ := serializeMember_total tbl hacc hs hv
  refine ⟨oc, hser p k, ?_, ?_, ?_, ?_, ?_⟩
  · intro h
    have := hoc.mpr h
    subst this
    exact ⟨rfl, by simp [keyed]⟩
  · intro h
    cases oc with
    | none =>
      have := hoc.mp rfl
      rw [h] at this
      cases this
    | some c => exact ⟨c, rfl, rfl⟩
  · intro h
    exact omitsKey_eq_absentOptionalOid T v h
  · simp
  · intro key c h
    exact find_append_of_some p _ key c h

/-- Witness of C25: a null cell for an absent optional int32 is added after a
pair that has the same key. -/
theorem serialize_only_appends_witness :
    ∃ oc : Option Cell,
      serializeMember testTable (.optional .int32) [("n", .int32 1)] "n" (.opt none) =
        .ok ([("n", .int32 1)] ++ keyed "n" oc) ∧
      find ([("n", .int32 1)] ++ keyed "n" oc) "n" = some (.int32 1) := by
  obtain ⟨oc, h1, _, _, _, _, h6⟩ := serialize_only_appends testTable testTable_accepted
    (.optional .int32) (.opt none) rfl (HasType.none .int32) [("n", .int32 1)] "n"
  exact ⟨oc, h1, h6 "n" (.int32 1) (by simp [find])⟩

/-! ## An optional of an optional -/

/-- C26, as stated, fails: for an optional of an optional identifier, a present
outer optional with an absent inner one is serialized as no pair at all, so no
null cell is found under the key. -/
theorem nested_optionals_collapse_counterexample :
    serializable (.optional (.optional .oid)) = true ∧
    decodable (.optional (.optional .oid)) = true ∧
    HasType wrappedTable (.optional (.optional .oid)) (.opt (some (.opt none))) ∧
    serializeMember wrappedTable (.optional (.optional .oid)) [] "id"
      (.opt (some (.opt none))) = .ok [] ∧
    find ([] : Doc) "id" ≠ some .null := by
  refine ⟨rfl, rfl, HasType.some _ _ (HasType.none .oid), ?_, by simp [find]⟩
  rw [serializeMember_some, serializeMember_none wrappedTable .oid rfl]
  simp

/-- C26, amended: for an optional of an optional of `T` that serializes and
decodes, with `T` other than the identifier, a present outer optional with an
absent inner one is serialized as a null cell under the key, as the absent outer
optional is, and decoding the builder gives the absent outer optional.  For the
identifier as `T`, the present outer optional with an absent inner one adds no
pair, and decoding leaves the member as it was.  In both cases `get` decodes the
null cell as the absent outer optional. -/
theorem nested_optionals_collapse (T : Ty) (hs : serializable (.optional T) = true)
    (hd : decodable T = true) (doc : Doc) (key : String) (hkey : find doc key = none)
    (m : Val) :
    (T ≠ .oid →
      serializeMember tbl (.optional (.optional T)) doc key (.opt (some (.opt none))) =
        .ok (doc ++ [(key, .null)]) ∧
      deserializeMember tbl (.optional (.optional T)) m (doc ++ [(key, .null)]) key =
        .ok (.opt none)) ∧
    (T = .oid →
      serializeMember tbl (.optional (.optional T)) doc key (.opt (some (.opt none))) =
        .ok doc ∧
      deserializeMember tbl (.optional (.optional T)) m doc key = .ok m) ∧
    serializeMember tbl (.optional (.optional T)) doc key (.opt none) =
      .ok (doc ++ [(key, .null)]) ∧
    get tbl (.optional (.optional T)) (some .null) = .ok (.opt none) := by
  have hs2 : serializable (.optional (.optional T)) = true := by
    rw [serializable_optional_other (U := .optional T) rfl rfl]
    exact hs
  have hget : get tbl (.optional (.optional T)) (some .null) = .ok (.opt none) := by
    rw [get_optional_eq]
    simp [decodable, hd, Cell.type]
  refine ⟨?_, ?_, ?_, hget⟩
  · intro hne
    refine ⟨?_, ?_⟩
    · rw [serializeMember_some, serializeMember_none tbl T hs]
      simp [hne]
    · have hfind : find (doc ++ [(key, Cell.null)]) key = some .null := by
        rw [find_append, hkey]
        simp [find]
      rw [deserializeMember_eq, hfind]
      exact hget
  · intro heq
    refine ⟨?_, ?_⟩
    · rw [serializeMember_some, serializeMember_none tbl T hs]
      simp [heq]
    · rw [deserializeMember_eq, hkey]
  · rw [serializeMember_none tbl (.optional T) hs2]
    simp

/-- Witness of C26: an optional of an optional int32. -/
theorem nested_optionals_collapse_witness :
    serializeMember stampTable (.optional (.optional .int32)) [] "level"
        (.opt (some (.opt none))) = .ok ([] ++ [("level", .null)]) ∧
    deserializeMember stampTable (.optional (.optional .int32)) (.opt (some (.opt none)))
        ([] ++ [("level", .null)]) "level" = .ok (.opt none) :=
  (nested_optionals_collapse stampTable .int32 rfl rfl [] "level" rfl
    (.opt (some (.opt none)))).1 (by decide)

end BsonConvert
